import Mathlib

/- Verification of the nested-set division tree builder in division/build.go.

   Modeling conventions:
   - Go strings are modeled as lists of characters (`GoStr`); all codes in the
     dataset are ASCII digits, so byte-level slicing coincides with
     character-level slicing.
   - The int32 nested-set counter starts at 0 and is only ever incremented by
     1, so its values are 1 .. 2 * (node count); it is modeled as Nat.
   - A Go runtime panic from an out-of-range slice or index is modeled as
     `none`; Go map reads of missing keys return the zero value 0, modeled
     explicitly by `lookupD`.
   - The SQL text produced by genSQL varies only in the 6 emitted fields
     (code, name, parent code, depth, lft, rgt), so a written statement is
     modeled as that 6-field row. -/

abbrev GoStr := List Char

/-- A flat input record, with the JSON fields code, name, parent_code. -/
structure flatNode where
  code : GoStr
  name : GoStr
  parent_code : GoStr
deriving DecidableEq

/-- The Area node type of build.go: code, name, parent code, the two
    nested-set keys (int32 Left and Right, zero-initialized), and the
    ordered children slice SubAreas. -/
inductive Area : Type where
  | mk (code name parentCode : GoStr) (left right : Nat) (subAreas : List Area) : Area

def Area.code : Area → GoStr
  | .mk c _ _ _ _ _ => c

def Area.name : Area → GoStr
  | .mk _ n _ _ _ _ => n

def Area.parentCode : Area → GoStr
  | .mk _ _ p _ _ _ => p

def Area.left : Area → Nat
  | .mk _ _ _ l _ _ => l

def Area.right : Area → Nat
  | .mk _ _ _ _ r _ => r

def Area.subAreas : Area → List Area
  | .mk _ _ _ _ _ s => s

/-- getProvince of build.go: copy the first 2 bytes of code over "000000".
    Go panics (slice bounds out of range) on a shorter code; modeled as none. -/
def getProvince (code : GoStr) : Option GoStr :=
  if 2 ≤ code.length then some (code.take 2 ++ ['0', '0', '0', '0']) else none

/-- getCity of build.go: copy the first 4 bytes of code over "000000". -/
def getCity (code : GoStr) : Option GoStr :=
  if 4 ≤ code.length then some (code.take 4 ++ ['0', '0']) else none

/-- getArea of build.go: copy the first 6 bytes of code over "000000". -/
def getArea (code : GoStr) : Option GoStr :=
  if 6 ≤ code.length then some (code.take 6) else none

/-- Go map read with the zero value 0 returned for a missing key. -/
def lookupD : List (GoStr × Nat) → GoStr → Nat
  | [], _ => 0
  | e :: m, k => if e.1 = k then e.2 else lookupD m k

/-- The order map built by the province loop of buildTrees: code ↦ slice
    index, starting at index i. Later bindings are placed in front of
    earlier ones so that lookupD sees the latest write, matching Go map
    overwrite semantics. -/
def orderFrom : Nat → List flatNode → List (GoStr × Nat)
  | _, [] => []
  | i, r :: rs => orderFrom (i + 1) rs ++ [(r.code, i)]

def orderMap (rs : List flatNode) : List (GoStr × Nat) :=
  orderFrom 0 rs

def Area.withSubAreas : Area → List Area → Area
  | .mk c n pc l r _, subs => .mk c n pc l r subs

/-- Go append of one new child pointer to the SubAreas slice of a node. -/
def appendChild (child : Area) (t : Area) : Area :=
  t.withSubAreas (t.subAreas ++ [child])

def appendList (t : Area) (l : List Area) : Area :=
  t.withSubAreas (t.subAreas ++ l)

/-- The root Area built for a province record: ParentCode is the literal "0". -/
def mkRoot (p : flatNode) : Area :=
  .mk p.code p.name ['0'] 0 0 []

/-- The Area built for a city, area or street record: all three string
    fields are copied verbatim from the record. -/
def mkChildNode (r : flatNode) : Area :=
  .mk r.code r.name r.parent_code 0 0 []

/-- Following a chain of SubAreas indices below a node; none models the
    index-out-of-range panic. -/
def subtreeAt : Area → List Nat → Option Area
  | t, [] => some t
  | t, j :: js =>
    match t.subAreas[j]? with
    | some c => subtreeAt c js
    | none => none

/-- The node of the forest at a position path (root index, then SubAreas
    indices), as read by the chains trees[i], p.SubAreas[j], c.SubAreas[k]
    in buildTrees. -/
def nodeAt (ts : List Area) : List Nat → Option Area
  | [] => none
  | i :: is =>
    match ts[i]? with
    | some t => subtreeAt t is
    | none => none

def updTree (f : Area → Area) : Area → List Nat → Option Area
  | t, [] => some (f t)
  | t, j :: js =>
    match t.subAreas[j]? with
    | some c => (updTree f c js).map (fun c2 => t.withSubAreas (t.subAreas.set j c2))
    | none => none

/-- In-place mutation of the node at a position path (build.go mutates the
    node through a pointer); none models the index-out-of-range panic. -/
def updPath (f : Area → Area) (ts : List Area) : List Nat → Option (List Area)
  | [] => none
  | i :: is =>
    match ts[i]? with
    | some t => (updTree f t is).map (fun t2 => ts.set i t2)
    | none => none

/-- One for-loop of buildTrees threading its state, stopping at a panic. -/
def foldAdd {σ : Type} (f : σ → flatNode → Option σ) : σ → List flatNode → Option σ
  | s, [] => some s
  | s, r :: rs =>
    match f s r with
    | some s2 => foldAdd f s2 rs
    | none => none

/-- The city-loop body of buildTrees: resolve the owning province code,
    look its slice index up (0 if absent), append the city node to that
    root, and record the position of the city within the SubAreas of its
    root in cityOrder. -/
def addCity (po : List (GoStr × Nat)) (st : List Area × List (GoStr × Nat)) (c : flatNode) :
    Option (List Area × List (GoStr × Nat)) :=
  match getProvince c.code with
  | none => none
  | some pCode =>
    match st.1[lookupD po pCode]? with
    | none => none
    | some p =>
      some (st.1.set (lookupD po pCode) (appendChild (mkChildNode c) p),
            (c.code, p.subAreas.length) :: st.2)

/-- The area-loop body of buildTrees: resolve province and city, append the
    area node under the city at position (i, j), record its position. -/
def addArea (po co : List (GoStr × Nat)) (st : List Area × List (GoStr × Nat)) (a : flatNode) :
    Option (List Area × List (GoStr × Nat)) :=
  match getProvince a.code, getCity a.code with
  | some pCode, some cCode =>
    match nodeAt st.1 [lookupD po pCode, lookupD co cCode],
          updPath (appendChild (mkChildNode a)) st.1 [lookupD po pCode, lookupD co cCode] with
    | some cNode, some ts2 => some (ts2, (a.code, cNode.subAreas.length) :: st.2)
    | _, _ => none
  | _, _ => none

/-- The street-loop body of buildTrees: resolve province, city and area,
    append the street node under the area at position (i, j, k). -/
def addStreet (po co ao : List (GoStr × Nat)) (ts : List Area) (s : flatNode) :
    Option (List Area) :=
  match getProvince s.code, getCity s.code, getArea s.code with
  | some pCode, some cCode, some aCode =>
    updPath (appendChild (mkChildNode s)) ts
      [lookupD po pCode, lookupD co cCode, lookupD ao aCode]
  | _, _, _ => none

/-- buildTrees of build.go: build the province roots and the three order
    maps, then attach cities, areas and streets level by level. -/
def buildTrees (ps cs as ss : List flatNode) : Option (List Area) :=
  match foldAdd (addCity (orderMap ps)) (ps.map mkRoot, []) cs with
  | none => none
  | some (ts1, co) =>
    match foldAdd (addArea (orderMap ps) co) (ts1, []) as with
    | none => none
    | some (ts2, ao) => foldAdd (addStreet (orderMap ps) co ao) ts2 ss

mutual
/-- indexTree of build.go: pre-increment the counter into Left, index the
    children threading the counter, pre-increment it again into Right, and
    return the counter. The Go counter is an int32; it is carried here as
    its 32-bit pattern, so every increment wraps modulo 2 ^ 32 exactly as
    Go int32 addition does, and the signed value of a stored key is read
    back through int32val below. -/
def indexTree : Area → Nat → Area × Nat
  | .mk c n pc _ _ subs, start =>
    (.mk c n pc ((start + 1) % 2 ^ 32)
      (((indexList subs ((start + 1) % 2 ^ 32)).2 + 1) % 2 ^ 32)
      (indexList subs ((start + 1) % 2 ^ 32)).1,
     ((indexList subs ((start + 1) % 2 ^ 32)).2 + 1) % 2 ^ 32)

/-- The child loop of indexTree (also the root loop of assignKeys). -/
def indexList : List Area → Nat → List Area × Nat
  | [], s => ([], s)
  | t :: ts, s =>
    ((indexTree t s).1 :: (indexList ts (indexTree t s).2).1,
     (indexList ts (indexTree t s).2).2)
end

/-- assignKeys of build.go: index every root in order, threading one global
    int32 counter that starts at 0 and is never reset. -/
def assignKeys (ts : List Area) : List Area :=
  (indexList ts 0).1

/-- The signed int32 value denoted by a 32-bit pattern. -/
def int32val (x : Nat) : Int :=
  if x < 2 ^ 31 then (x : Int) else (x : Int) - 2 ^ 32

/-- A province record used to exhibit the counter wrap on a large forest. -/
def wrapPv : flatNode := ⟨['1', '1'], ['A'], ['0']⟩

mutual
/-- Companion of indexTree with the counter kept unbounded: the key values
    indexTree assigns while no wrap occurs. The bridging lemmas below equate
    it with indexTree whenever the counter stays below 2 ^ 32. -/
def indexTreeU : Area → Nat → Area × Nat
  | .mk c n pc _ _ subs, start =>
    (.mk c n pc (start + 1) ((indexListU subs (start + 1)).2 + 1) (indexListU subs (start + 1)).1,
     (indexListU subs (start + 1)).2 + 1)

/-- The child loop of indexTreeU (also the root loop of assignKeysU). -/
def indexListU : List Area → Nat → List Area × Nat
  | [], s => ([], s)
  | t :: ts, s =>
    ((indexTreeU t s).1 :: (indexListU ts (indexTreeU t s).2).1, (indexListU ts (indexTreeU t s).2).2)
end

/-- Companion of assignKeys built on the unbounded indexListU. -/
def assignKeysU (ts : List Area) : List Area :=
  (indexListU ts 0).1

mutual
/-- Number of nodes of a tree. -/
def Area.size : Area → Nat
  | .mk _ _ _ _ _ subs => 1 + sizeList subs

/-- Number of nodes of a forest. -/
def sizeList : List Area → Nat
  | [] => 0
  | t :: ts => t.size + sizeList ts
end

mutual
/-- All nodes of a tree in pre-order. -/
def allNodes : Area → List Area
  | .mk c n pc l r subs => .mk c n pc l r subs :: allNodesList subs

/-- All nodes of a forest in pre-order. -/
def allNodesList : List Area → List Area
  | [] => []
  | t :: ts => allNodes t ++ allNodesList ts
end

mutual
/-- All Left and Right values of a tree. -/
def labels : Area → List Nat
  | .mk _ _ _ l r subs => l :: r :: labelsList subs

/-- All Left and Right values of a forest. -/
def labelsList : List Area → List Nat
  | [] => []
  | t :: ts => labels t ++ labelsList ts
end

/-- One emitted row: the 6 fields genSQL writes into an INSERT statement
    (id, node, pid, depth, lft, rgt). -/
structure Row where
  code : GoStr
  name : GoStr
  parentCode : GoStr
  depth : Nat
  lft : Nat
  rgt : Nat
deriving DecidableEq

mutual
/-- genSQL of build.go: emit the row of the node, then the rows of its
    children at depth + 1, in order. -/
def genSQL : Area → Nat → List Row
  | .mk c n pc l r subs, depth => ⟨c, n, pc, depth, l, r⟩ :: genSQLList subs (depth + 1)

/-- The child loop of genSQL (also the root loop of genSQLFile). -/
def genSQLList : List Area → Nat → List Row
  | [], _ => []
  | t :: ts, depth => genSQL t depth ++ genSQLList ts depth
end

/-- genSQLFile of build.go: emit every root at depth 1, in order. -/
def genSQLFile (ts : List Area) : List Row :=
  genSQLList ts 1

mutual
/-- All nodes of a tree in pre-order, each paired with its depth, the root
    having depth d. -/
def nodesD : Area → Nat → List (Area × Nat)
  | .mk c n pc l r subs, d => (.mk c n pc l r subs, d) :: nodesDList subs (d + 1)

def nodesDList : List (Area) → Nat → List (Area × Nat)
  | [], _ => []
  | t :: ts, d => nodesD t d ++ nodesDList ts d
end

/-- The row a node at a given depth is emitted as. -/
def rowOf (p : Area × Nat) : Row :=
  ⟨p.1.code, p.1.name, p.1.parentCode, p.2, p.1.left, p.1.right⟩

mutual
/-- keysFrom t s: the nested-set keys of every node of t are exactly the
    ones indexTreeU assigns when the counter starts at s. -/
def keysFrom : Area → Nat → Prop
  | .mk _ _ _ l r subs, s => l = s + 1 ∧ keysFromList subs (s + 1) ∧ r = s + 2 + 2 * sizeList subs

/-- keysFromList ts s: the keys of the forest ts are the ones indexListU
    assigns from counter value s. -/
def keysFromList : List Area → Nat → Prop
  | [], _ => True
  | t :: ts, s => keysFrom t s ∧ keysFromList ts (s + 2 * t.size)
end

/-- The sibling interleaving stated by the spec for a node N with children
    C1 .. Ck in build order: N.left < C1.left, Ci.right < C(i+1).left, and
    Ck.right < N.right. -/
def siblingsOrdered (N : Area) : Prop :=
  (∀ c, N.subAreas.head? = some c → N.left < c.left) ∧
  List.Chain' (fun x y => Area.right x < Area.left y) N.subAreas ∧
  (∀ c, N.subAreas.getLast? = some c → c.right < N.right)

/-- Does the province prefix of the code of c match some province record? -/
def resolvesP (ps : List flatNode) (c : flatNode) : Bool :=
  match getProvince c.code with
  | some pc => ps.any (fun p => p.code == pc)
  | none => false

/-- Does the city prefix of the code of a match some city record? -/
def resolvesC (cs : List flatNode) (a : flatNode) : Bool :=
  match getCity a.code with
  | some cc => cs.any (fun c => c.code == cc)
  | none => false

/-- Does the area prefix of the code of s match some area record? -/
def resolvesA (as : List flatNode) (s : flatNode) : Bool :=
  match getArea s.code with
  | some ac => as.any (fun a => a.code == ac)
  | none => false

/-- Modelled from the spec: the area-level node of the order-preservation
    contract, carrying the street records whose area prefix resolves to it,
    in input order. -/
def expAreaNode (ss : List flatNode) (a : flatNode) : Area :=
  .mk a.code a.name a.parent_code 0 0
    ((ss.filter (fun s => decide (getArea s.code = some a.code))).map mkChildNode)

/-- Modelled from the spec: the city-level node, carrying the area records
    whose city prefix resolves to it, in input order. -/
def expCityNode (as2 ss : List flatNode) (c : flatNode) : Area :=
  .mk c.code c.name c.parent_code 0 0
    ((as2.filter (fun a => decide (getCity a.code = some c.code))).map (expAreaNode ss))

/-- Modelled from the spec: the province root, parent code "0", carrying the
    city records whose province prefix resolves to it, in input order. -/
def expRootNode (cs as2 ss : List flatNode) (p : flatNode) : Area :=
  .mk p.code p.name ['0'] 0 0
    ((cs.filter (fun c => decide (getProvince c.code = some p.code))).map
      (expCityNode as2 ss))

/-- Modelled from the spec contract of the Tree Builder (order preservation):
    provinces become roots in province-list order with parent code "0", and
    each deeper level is attached under the record its code prefix resolves
    to, preserving input order as sibling order. Stated from the spec words
    to be compared with buildTrees. -/
def expectedForest (ps cs as ss : List flatNode) : List Area :=
  ps.map (expRootNode cs as ss)

/-- The triple of string fields of a record. -/
def fTriple (r : flatNode) : GoStr × GoStr × GoStr :=
  (r.code, r.name, r.parent_code)

/-- The triple of string fields of a node. -/
def nTriple (t : Area) : GoStr × GoStr × GoStr :=
  (t.code, t.name, t.parentCode)

/-- The triple of string fields of a row. -/
def rTriple (r : Row) : GoStr × GoStr × GoStr :=
  (r.code, r.name, r.parentCode)

/-- The single-chain example input of the spec (province A, city B, area C,
    street D). -/
def exPs : List flatNode := [⟨['1', '1'], ['A'], ['0']⟩]

def exCs : List flatNode := [⟨['1', '1', '0', '1'], ['B'], ['1', '1']⟩]

def exAs : List flatNode := [⟨['1', '1', '0', '1', '0', '1'], ['C'], ['1', '1', '0', '1']⟩]

def exSs : List flatNode :=
  [⟨['1', '1', '0', '1', '0', '1', '0', '0', '0', '1'], ['D'], ['1', '1', '0', '1', '0', '1']⟩]

/-- The same single chain with fully padded province and city codes, so that
    every record resolves to an existing parent. -/
def exPs6 : List flatNode := [⟨['1', '1', '0', '0', '0', '0'], ['A'], ['0']⟩]

def exCs6 : List flatNode :=
  [⟨['1', '1', '0', '1', '0', '0'], ['B'], ['1', '1', '0', '0', '0', '0']⟩]

def exAs6 : List flatNode :=
  [⟨['1', '1', '0', '1', '0', '1'], ['C'], ['1', '1', '0', '1', '0', '0']⟩]

def exSs6 : List flatNode :=
  [⟨['1', '1', '0', '1', '0', '1', '0', '0', '0', '1'], ['D'], ['1', '1', '0', '1', '0', '1']⟩]

/-- A city record whose province prefix 31 matches no province of exPs. -/
def cxCs : List flatNode := [⟨['3', '1', '0', '1'], ['B'], ['3', '1']⟩]

/-- The forest buildTrees produces on the single-chain example, before
    assignKeys. -/
def exForest : List Area :=
  [Area.mk ['1', '1'] ['A'] ['0'] 0 0
    [Area.mk ['1', '1', '0', '1'] ['B'] ['1', '1'] 0 0
      [Area.mk ['1', '1', '0', '1', '0', '1'] ['C'] ['1', '1', '0', '1'] 0 0
        [Area.mk ['1', '1', '0', '1', '0', '1', '0', '0', '0', '1'] ['D']
          ['1', '1', '0', '1', '0', '1'] 0 0 []]]]]

/-- The root of the single-chain example forest after assignKeys. -/
def exIndexed : Area :=
  Area.mk ['1', '1'] ['A'] ['0'] 1 8
    [Area.mk ['1', '1', '0', '1'] ['B'] ['1', '1'] 2 7
      [Area.mk ['1', '1', '0', '1', '0', '1'] ['C'] ['1', '1', '0', '1'] 3 6
        [Area.mk ['1', '1', '0', '1', '0', '1', '0', '0', '0', '1'] ['D']
          ['1', '1', '0', '1', '0', '1'] 4 5 []]]]

/-- The root index a city record is attached under by buildTrees: province
    prefix resolution followed by the order-map lookup (some i), or none on
    a too-short code. -/
def cityMatch (po : List (GoStr × Nat)) (i : Nat) (c : flatNode) : Bool :=
  decide ((getProvince c.code).map (lookupD po) = some i)

/-- The position (root index, city index) an area record is attached under. -/
def areaMatch (po co : List (GoStr × Nat)) (i j : Nat) (a : flatNode) : Bool :=
  decide ((getProvince a.code).map (lookupD po) = some i ∧
          (getCity a.code).map (lookupD co) = some j)

/-- The position (root, city, area) a street record is attached under. -/
def streetMatch (po co ao : List (GoStr × Nat)) (i j k : Nat) (s : flatNode) : Bool :=
  decide ((getProvince s.code).map (lookupD po) = some i ∧
          (getCity s.code).map (lookupD co) = some j ∧
          (getArea s.code).map (lookupD ao) = some k)

/- ------------------------------------------------------------------ -/
/- Theorems.                                                           -/
/- ------------------------------------------------------------------ -/

theorem lookupD_not_key (m : List (GoStr × Nat)) (k : GoStr) (h : ∀ e ∈ m, e.1 ≠ k) :
    lookupD m k = 0 := by
  induction m with
  | nil => rfl
  | cons e m ih =>
    have he : e.1 ≠ k := h e (List.mem_cons_self e m)
    simp only [lookupD, if_neg he]
    exact ih (fun e2 h2 => h e2 (List.mem_cons_of_mem e h2))

theorem orderFrom_keys (rs : List flatNode) : ∀ i e, e ∈ orderFrom i rs → ∃ r ∈ rs, e.1 = r.code := by
  induction rs with
  | nil => intro i e h; simp [orderFrom] at h
  | cons r rs ih =>
    intro i e h
    simp only [orderFrom, List.mem_append, List.mem_singleton] at h
    rcases h with h | h
    · obtain ⟨r2, hr2, he⟩ := ih (i + 1) e h
      exact ⟨r2, List.mem_cons_of_mem r hr2, he⟩
    · exact ⟨r, List.mem_cons_self r rs, by simp [h]⟩

/-- Claim C8: for every code of sufficient length, getProvince returns the
    first 2 characters of the code right-padded with the digit 0 to length
    6, getCity the first 4 padded to 6, and getArea the first 6 characters;
    each result has length exactly 6. -/
theorem resolver_take_pad (code : GoStr) :
    (2 ≤ code.length →
      getProvince code = some (code.take 2 ++ ['0', '0', '0', '0']) ∧
      (code.take 2 ++ ['0', '0', '0', '0']).length = 6) ∧
    (4 ≤ code.length →
      getCity code = some (code.take 4 ++ ['0', '0']) ∧
      (code.take 4 ++ ['0', '0']).length = 6) ∧
    (6 ≤ code.length →
      getArea code = some (code.take 6) ∧
      (code.take 6).length = 6) := by
  refine ⟨fun h => ⟨?_, ?_⟩, fun h => ⟨?_, ?_⟩, fun h => ⟨?_, ?_⟩⟩
  · simp [getProvince, if_pos h]
  · simp only [List.length_append, List.length_take, List.length_cons, List.length_nil]
    omega
  · simp [getCity, if_pos h]
  · simp only [List.length_append, List.length_take, List.length_cons, List.length_nil]
    omega
  · simp [getArea, if_pos h]
  · simp only [List.length_take]
    omega

theorem resolver_take_pad_witness :
    (getProvince ['1', '2', '3', '4', '5', '6'] = some ['1', '2', '0', '0', '0', '0'] ∧
      (['1', '2', '0', '0', '0', '0'] : GoStr).length = 6) ∧
    (getCity ['1', '2', '3', '4', '5', '6'] = some ['1', '2', '3', '4', '0', '0'] ∧
      (['1', '2', '3', '4', '0', '0'] : GoStr).length = 6) ∧
    (getArea ['1', '2', '3', '4', '5', '6'] = some ['1', '2', '3', '4', '5', '6'] ∧
      (['1', '2', '3', '4', '5', '6'] : GoStr).length = 6) := by
  have h := resolver_take_pad ['1', '2', '3', '4', '5', '6']
  exact ⟨h.1 (by decide), h.2.1 (by decide), h.2.2 (by decide)⟩

/-- Claim C6: the code does not abort with a clear diagnostic on a code
    shorter than the resolution width; the slice expression
    ([]byte(code))[:2] panics at runtime with a generic slice-bounds
    message, which main only recovers and logs as a stack trace. The
    embedding records the panic as none at the failing inputs. -/
theorem resolver_short_code_panics :
    getProvince ['1'] = none ∧
    getCity ['1', '2', '3'] = none ∧
    getArea ['1', '2', '3', '4', '5'] = none := by
  decide

/-- Claim C4: on the single-chain example input (province A, city B, area C,
    street D) the emitted records appear in order A, B, C, D with
    (left, right, depth) = (1,8,1), (2,7,2), (3,6,3), (4,5,4). -/
theorem buildTrees_example_output :
    (buildTrees exPs exCs exAs exSs).map (fun ts => genSQLFile (assignKeys ts)) =
    some [⟨['1', '1'], ['A'], ['0'], 1, 1, 8⟩,
          ⟨['1', '1', '0', '1'], ['B'], ['1', '1'], 2, 2, 7⟩,
          ⟨['1', '1', '0', '1', '0', '1'], ['C'], ['1', '1', '0', '1'], 3, 3, 6⟩,
          ⟨['1', '1', '0', '1', '0', '1', '0', '0', '0', '1'], ['D'],
           ['1', '1', '0', '1', '0', '1'], 4, 4, 5⟩] := by
  decide

/-- Claim C3, counterexample: a city record whose resolved parent code 310000
    matches no province does NOT make construction fail; buildTrees returns a
    forest, and the forest contains that city record, silently attached under
    the unrelated first province. -/
theorem missing_parent_counterexample :
    (buildTrees exPs cxCs [] []).isSome = true ∧
    buildTrees exPs cxCs [] [] =
      some [Area.mk ['1', '1'] ['A'] ['0'] 0 0
              [Area.mk ['3', '1', '0', '1'] ['B'] ['3', '1'] 0 0 []]] := by
  exact ⟨rfl, rfl⟩

/-- Claim C3, amended: a record whose resolved parent code has no entry in
    the order map is looked up as index 0 (the Go zero value for a missing
    map key); when a node exists at that index, the record is silently
    appended under it — here, a city with an unmatched province prefix is
    attached under the first province root and a forest containing it is
    returned, with no error. -/
theorem missing_parent_attaches_first (p0 : flatNode) (ps : List flatNode) (c : flatNode)
    (pc : GoStr) (hpc : getProvince c.code = some pc)
    (hmem : ∀ p ∈ p0 :: ps, p.code ≠ pc) :
    buildTrees (p0 :: ps) [c] [] [] =
      some (appendChild (mkChildNode c) (mkRoot p0) :: ps.map mkRoot) := by
  have hl : lookupD (orderMap (p0 :: ps)) pc = 0 := by
    refine lookupD_not_key _ _ (fun e he => ?_)
    obtain ⟨r, hr, he2⟩ := orderFrom_keys (p0 :: ps) 0 e he
    rw [he2]
    exact hmem r hr
  simp [buildTrees, foldAdd, addCity, hpc, orderMap] at hl ⊢
  rw [hl]
  simp [List.getElem?_cons_zero, List.set]

theorem missing_parent_attaches_first_witness :
    buildTrees exPs cxCs [] [] =
      some (appendChild (mkChildNode ⟨['3', '1', '0', '1'], ['B'], ['3', '1']⟩)
              (mkRoot ⟨['1', '1'], ['A'], ['0']⟩) :: ([] : List flatNode).map mkRoot) := by
  exact missing_parent_attaches_first ⟨['1', '1'], ['A'], ['0']⟩ []
    ⟨['3', '1', '0', '1'], ['B'], ['3', '1']⟩ ['3', '1', '0', '0', '0', '0']
    (by decide) (by decide)

/- Nested-set indexing machinery. -/

theorem Area.size_pos : ∀ t : Area, 1 ≤ t.size
  | .mk _ _ _ _ _ subs => by
    simp only [Area.size]
    omega

theorem sizeList_eq_zero {ts : List Area} : sizeList ts = 0 ↔ ts = [] := by
  cases ts with
  | nil => simp [sizeList]
  | cons t ts =>
    have h := Area.size_pos t
    simp only [sizeList]
    constructor
    · intro h2
      exact absurd h2 (by omega)
    · intro h2
      exact (List.cons_ne_nil t ts h2).elim

mutual
theorem indexTreeU_keysFrom : ∀ (t : Area) (s : Nat),
    keysFrom (indexTreeU t s).1 s ∧ (indexTreeU t s).2 = s + 2 * t.size ∧
    (indexTreeU t s).1.size = t.size
  | .mk c n pc l r subs, s => by
    obtain ⟨h1, h2, h3⟩ := indexListU_keysFrom subs (s + 1)
    simp only [indexTreeU, keysFrom, Area.size] at h1 h2 h3 ⊢
    exact ⟨⟨by trivial, h1, by omega⟩, by omega, by omega⟩

theorem indexListU_keysFrom : ∀ (ts : List Area) (s : Nat),
    keysFromList (indexListU ts s).1 s ∧ (indexListU ts s).2 = s + 2 * sizeList ts ∧
    sizeList (indexListU ts s).1 = sizeList ts
  | [], s => by simp [indexListU, keysFromList, sizeList]
  | t :: ts, s => by
    obtain ⟨h1, h2, h3⟩ := indexTreeU_keysFrom t s
    obtain ⟨g1, g2, g3⟩ := indexListU_keysFrom ts (indexTreeU t s).2
    simp only [indexListU, keysFromList, sizeList] at h1 h2 h3 g1 g2 g3 ⊢
    refine ⟨⟨h1, ?_⟩, by omega, by omega⟩
    rw [h3, ← h2]
    exact g1
end

theorem self_mem_allNodes : ∀ t : Area, t ∈ allNodes t
  | .mk c n pc l r subs => by simp [allNodes]

theorem mem_allNodesList_of_mem : ∀ (ts : List Area) (b : Area), b ∈ ts → b ∈ allNodesList ts
  | [], b => by intro h; simp at h
  | t :: ts, b => by
    intro h
    simp only [allNodesList, List.mem_append]
    rcases List.mem_cons.mp h with rfl | h2
    · exact Or.inl (self_mem_allNodes b)
    · exact Or.inr (mem_allNodesList_of_mem ts b h2)

mutual
theorem keysFrom_mem : ∀ (t : Area) (s : Nat), keysFrom t s → ∀ m ∈ allNodes t,
    ∃ u, s ≤ u ∧ keysFrom m u ∧ u + 2 * m.size ≤ s + 2 * t.size
  | .mk c n pc l r subs, s => by
    intro h m hm
    simp only [allNodes, List.mem_cons] at hm
    rcases hm with rfl | hm
    · exact ⟨s, le_refl s, h, le_refl _⟩
    · simp only [keysFrom] at h
      obtain ⟨u, hu1, hu2, hu3⟩ := keysFromList_mem subs (s + 1) h.2.1 m hm
      refine ⟨u, by omega, hu2, ?_⟩
      simp only [Area.size]
      omega

theorem keysFromList_mem : ∀ (ts : List Area) (s : Nat), keysFromList ts s →
    ∀ m ∈ allNodesList ts,
    ∃ u, s ≤ u ∧ keysFrom m u ∧ u + 2 * m.size ≤ s + 2 * sizeList ts
  | [], s => by intro h m hm; simp [allNodesList] at hm
  | t :: ts, s => by
    intro h m hm
    simp only [keysFromList] at h
    simp only [allNodesList, List.mem_append] at hm
    rcases hm with hm | hm
    · obtain ⟨u, hu1, hu2, hu3⟩ := keysFrom_mem t s h.1 m hm
      refine ⟨u, hu1, hu2, ?_⟩
      simp only [sizeList]
      omega
    · obtain ⟨u, hu1, hu2, hu3⟩ := keysFromList_mem ts (s + 2 * t.size) h.2 m hm
      refine ⟨u, by omega, hu2, ?_⟩
      simp only [sizeList]
      omega
end

theorem keysFrom_facts : ∀ (t : Area) (s : Nat), keysFrom t s →
    t.left = s + 1 ∧ t.right = s + 2 * t.size ∧
    t.right = t.left + 2 * sizeList t.subAreas + 1
  | .mk c n pc l r subs, s => by
    intro h
    simp only [keysFrom] at h
    simp only [Area.left, Area.right, Area.size, Area.subAreas]
    omega

theorem keysFromList_chain : ∀ (ts : List Area) (s : Nat), keysFromList ts s →
    List.Chain' (fun a b => a.right < b.left) ts
  | [], _ => by intro h; exact List.chain'_nil
  | [t], _ => by intro h; exact List.chain'_singleton t
  | t :: t2 :: ts, s => by
    intro h
    simp only [keysFromList] at h
    rw [List.chain'_cons]
    refine ⟨?_, ?_⟩
    · have h1 := keysFrom_facts t s h.1
      have h2 := keysFrom_facts t2 (s + 2 * t.size) h.2.1
      omega
    · exact keysFromList_chain (t2 :: ts) (s + 2 * t.size)
        (by simp only [keysFromList]; exact h.2)

theorem keysFromList_last : ∀ (ts : List Area) (s : Nat), keysFromList ts s →
    ∀ x, ts.getLast? = some x → x.right ≤ s + 2 * sizeList ts
  | [], _ => by intro h x hx; simp at hx
  | [t], s => by
    intro h x hx
    simp only [keysFromList] at h
    simp only [List.getLast?_singleton, Option.some.injEq] at hx
    have h1 := keysFrom_facts t s h.1
    simp only [sizeList]
    subst hx
    omega
  | t :: t2 :: ts, s => by
    intro h x hx
    simp only [keysFromList] at h
    rw [List.getLast?_cons_cons] at hx
    have := keysFromList_last (t2 :: ts) (s + 2 * t.size)
      (by simp only [keysFromList]; exact h.2) x hx
    simp only [sizeList] at this ⊢
    omega

theorem keysFrom_sibs : ∀ (t : Area) (s : Nat), keysFrom t s → siblingsOrdered t
  | .mk c n pc l r subs, s => by
    intro h
    simp only [keysFrom] at h
    obtain ⟨hl, hsubs, hr⟩ := h
    refine ⟨?_, ?_, ?_⟩
    · intro x hx
      simp only [Area.subAreas] at hx
      cases subs with
      | nil => simp at hx
      | cons y ys =>
        simp only [List.head?_cons, Option.some.injEq] at hx
        simp only [keysFromList] at hsubs
        have hf := keysFrom_facts y (s + 1) hsubs.1
        show l < x.left
        subst hx
        omega
    · show List.Chain' _ (Area.subAreas (Area.mk c n pc l r subs))
      simp only [Area.subAreas]
      exact keysFromList_chain subs (s + 1) hsubs
    · intro x hx
      simp only [Area.subAreas] at hx
      have hlast := keysFromList_last subs (s + 1) hsubs x hx
      show x.right < r
      omega

theorem keysFrom_contain : ∀ (t : Area) (s : Nat), keysFrom t s →
    ∀ D ∈ allNodesList t.subAreas,
      t.left < D.left ∧ D.left < D.right ∧ D.right < t.right
  | .mk c n pc l r subs, s => by
    intro h D hD
    simp only [Area.subAreas] at hD
    simp only [keysFrom] at h
    obtain ⟨hl, hsubs, hr⟩ := h
    obtain ⟨u, hu1, huk, hu3⟩ := keysFromList_mem subs (s + 1) hsubs D hD
    have hf := keysFrom_facts D u huk
    have hp := Area.size_pos D
    show l < D.left ∧ D.left < D.right ∧ D.right < r
    omega

mutual
theorem keysFrom_labels : ∀ (t : Area) (s : Nat), keysFrom t s →
    (labels t).Perm (List.range' (s + 1) (2 * t.size))
  | .mk c n pc l r subs, s => by
    intro h
    simp only [keysFrom] at h
    obtain ⟨hl, hsubs, hr⟩ := h
    have ih := keysFromList_labels subs (s + 1) hsubs
    subst hl
    subst hr
    simp only [labels, Area.size]
    have e2 : List.range' (s + 1) (2 * (1 + sizeList subs)) =
        (s + 1) :: (List.range' (s + 1 + 1) (2 * sizeList subs) ++
          [s + 1 + 1 + 2 * sizeList subs]) := by
      have h1 : 2 * (1 + sizeList subs) = (2 * sizeList subs + 1) + 1 := by omega
      rw [h1, List.range'_succ, List.range'_1_concat]
    rw [e2]
    refine List.Perm.cons _ ?_
    refine List.Perm.trans ?_ (List.perm_append_singleton _ _).symm
    have e3 : s + 2 + 2 * sizeList subs = s + 1 + 1 + 2 * sizeList subs := by omega
    rw [e3]
    exact List.Perm.cons _ ih

theorem keysFromList_labels : ∀ (ts : List Area) (s : Nat), keysFromList ts s →
    (labelsList ts).Perm (List.range' (s + 1) (2 * sizeList ts))
  | [], s => by intro h; simp [labelsList, sizeList]
  | t :: ts, s => by
    intro h
    simp only [keysFromList] at h
    have ih1 := keysFrom_labels t s h.1
    have ih2 := keysFromList_labels ts (s + 2 * t.size) h.2
    simp only [labelsList, sizeList]
    have e : List.range' (s + 1) (2 * (t.size + sizeList ts)) =
        List.range' (s + 1) (2 * t.size) ++
          List.range' (s + 1 + 1 * (2 * t.size)) (2 * sizeList ts) := by
      have h2 : 2 * (t.size + sizeList ts) = 2 * sizeList ts + 2 * t.size := by omega
      rw [h2, ← List.range'_append]
    rw [e]
    refine List.Perm.append ih1 ?_
    have e4 : s + 2 * t.size + 1 = s + 1 + 1 * (2 * t.size) := by omega
    rw [← e4]
    exact ih2
end

theorem keysFromList_pairwise : ∀ (ts : List Area) (s : Nat), keysFromList ts s →
    List.Pairwise (fun a b => a.right < b.left) ts
  | [], _ => by intro h; exact List.Pairwise.nil
  | t :: ts, s => by
    intro h
    simp only [keysFromList] at h
    refine List.Pairwise.cons ?_ (keysFromList_pairwise ts (s + 2 * t.size) h.2)
    intro b hb
    obtain ⟨u, hu1, huk, _⟩ := keysFromList_mem ts (s + 2 * t.size) h.2 b
      (mem_allNodesList_of_mem ts b hb)
    have hf1 := keysFrom_facts t s h.1
    have hf2 := keysFrom_facts b u huk
    omega

theorem assignKeysU_keysFromList (ts : List Area) :
    keysFromList (assignKeysU ts) 0 ∧ sizeList (assignKeysU ts) = sizeList ts := by
  have h := indexListU_keysFrom ts 0
  exact ⟨h.1, h.2.2⟩

/- Field preservation through buildTrees (claim C10). -/

theorem allNodesList_append : ∀ (A B : List Area),
    allNodesList (A ++ B) = allNodesList A ++ allNodesList B
  | [], B => by simp [allNodesList]
  | t :: ts, B => by
    have ih := allNodesList_append ts B
    show allNodes t ++ allNodesList (ts ++ B) =
      (allNodes t ++ allNodesList ts) ++ allNodesList B
    rw [ih, List.append_assoc]

theorem allNodes_eq : ∀ c : Area, allNodes c = c :: allNodesList c.subAreas
  | .mk _ _ _ _ _ _ => rfl

theorem allNodes_sub_of_mem : ∀ (subs : List Area) (c : Area), c ∈ subs →
    ∀ m ∈ allNodes c, m ∈ allNodesList subs
  | [], c => by intro h; simp at h
  | x :: rest, c => by
    intro hc m hm
    simp only [allNodesList, List.mem_append]
    rcases List.mem_cons.mp hc with rfl | h2
    · exact Or.inl hm
    · exact Or.inr (allNodes_sub_of_mem rest c h2 m hm)

theorem allNodesList_set_sub : ∀ (subs : List Area) (j : Nat) (c2 : Area),
    ∀ m ∈ allNodesList (subs.set j c2), m ∈ allNodes c2 ∨ m ∈ allNodesList subs
  | [], j, c2 => by intro m hm; simp [List.set, allNodesList] at hm
  | x :: rest, 0, c2 => by
    intro m hm
    simp only [List.set_cons_zero, allNodesList, List.mem_append] at hm ⊢
    rcases hm with hm | hm
    · exact Or.inl hm
    · exact Or.inr (Or.inr hm)
  | x :: rest, j + 1, c2 => by
    intro m hm
    simp only [List.set_cons_succ, allNodesList, List.mem_append] at hm ⊢
    rcases hm with hm | hm
    · exact Or.inr (Or.inl hm)
    · rcases allNodesList_set_sub rest j c2 m hm with h | h
      · exact Or.inl h
      · exact Or.inr (Or.inr h)

theorem nTriple_withSubAreas : ∀ (t : Area) (l : List Area),
    nTriple (t.withSubAreas l) = nTriple t
  | .mk _ _ _ _ _ _, l => rfl

theorem subAreas_withSubAreas : ∀ (t : Area) (l : List Area), (t.withSubAreas l).subAreas = l
  | .mk _ _ _ _ _ _, l => rfl

theorem updTree_triples : ∀ (p : List Nat) (t t2 nd : Area),
    updTree (appendChild nd) t p = some t2 →
    nTriple t2 = nTriple t ∧
    ∀ m ∈ allNodesList t2.subAreas,
      nTriple m ∈ (allNodesList t.subAreas).map nTriple ∨ m ∈ allNodes nd
  | [], t, t2, nd => by
    intro h
    simp only [updTree, Option.some.injEq] at h
    subst h
    refine ⟨nTriple_withSubAreas t _, ?_⟩
    intro m hm
    simp only [appendChild, subAreas_withSubAreas, allNodesList_append, allNodesList,
      List.append_nil, List.mem_append] at hm
    rcases hm with hm | hm
    · exact Or.inl (List.mem_map_of_mem nTriple hm)
    · exact Or.inr hm
  | j :: js, t, t2, nd => by
    intro h
    cases hc : t.subAreas[j]? with
    | none => simp [updTree, hc] at h
    | some c =>
      simp only [updTree, hc] at h
      cases hu : updTree (appendChild nd) c js with
      | none => rw [hu] at h; simp at h
      | some c2 =>
        rw [hu] at h
        simp only [Option.map_some', Option.some.injEq] at h
        subst h
        obtain ⟨ih1, ih2⟩ := updTree_triples js c c2 nd hu
        have hcm : c ∈ t.subAreas := by
          obtain ⟨hlt, he⟩ := List.getElem?_eq_some.mp hc
          exact he ▸ List.getElem_mem hlt
        refine ⟨nTriple_withSubAreas t _, ?_⟩
        intro m hm
        rw [subAreas_withSubAreas] at hm
        rcases allNodesList_set_sub _ j c2 m hm with hm2 | hm2
        · rw [allNodes_eq c2] at hm2
          rcases List.mem_cons.mp hm2 with rfl | hm3
          · left
            rw [ih1]
            exact List.mem_map_of_mem nTriple (mem_allNodesList_of_mem _ c hcm)
          · rcases ih2 m hm3 with h4 | h4
            · left
              obtain ⟨x, hx1, hx2⟩ := List.mem_map.mp h4
              exact List.mem_map.mpr ⟨x, allNodes_sub_of_mem _ c hcm x
                (by rw [allNodes_eq c]; exact List.mem_cons_of_mem c hx1), hx2⟩
            · exact Or.inr h4
        · exact Or.inl (List.mem_map_of_mem nTriple hm2)

theorem updPath_preserve : ∀ (pth : List Nat) (ts ts2 : List Area) (nd : Area),
    updPath (appendChild nd) ts pth = some ts2 →
    ts2.length = ts.length ∧
    (∀ i (h2 : i < ts2.length) (h : i < ts.length),
      nTriple (ts2.get ⟨i, h2⟩) = nTriple (ts.get ⟨i, h⟩)) ∧
    ∀ R2 ∈ ts2, ∀ N ∈ allNodesList R2.subAreas,
      (∃ R ∈ ts, nTriple N ∈ (allNodesList R.subAreas).map nTriple) ∨ N ∈ allNodes nd
  | [], ts, ts2, nd => by intro h; simp [updPath] at h
  | i :: is, ts, ts2, nd => by
    intro h
    cases hc : ts[i]? with
    | none => simp [updPath, hc] at h
    | some t =>
      simp only [updPath, hc] at h
      cases hu : updTree (appendChild nd) t is with
      | none => rw [hu] at h; simp at h
      | some t2 =>
        rw [hu] at h
        simp only [Option.map_some', Option.some.injEq] at h
        subst h
        obtain ⟨ih1, ih2⟩ := updTree_triples is t t2 nd hu
        obtain ⟨hlt, he⟩ := List.getElem?_eq_some.mp hc
        refine ⟨List.length_set ts i t2, ?_, ?_⟩
        · intro i2 h2 h3
          simp only [List.get_eq_getElem, List.getElem_set]
          by_cases hii : i = i2
          · subst hii
            simp only [if_true]
            rw [ih1, he]
          · simp only [if_neg hii]
        · intro R2 hR2 N hN
          rcases List.mem_or_eq_of_mem_set hR2 with hR | rfl
          · exact Or.inl ⟨R2, hR, List.mem_map_of_mem nTriple hN⟩
          · rcases ih2 N hN with h4 | h4
            · exact Or.inl ⟨t, he ▸ List.getElem_mem hlt, h4⟩
            · exact Or.inr h4

theorem foldAdd_tripleInv {σ : Type} (f : σ → flatNode → Option σ) (π : σ → List Area)
    (hstep : ∀ st r st2, f st r = some st2 →
      ∃ pth, updPath (appendChild (mkChildNode r)) (π st) pth = some (π st2)) :
    ∀ (rs : List flatNode) (st st2 : σ), foldAdd f st rs = some st2 →
      (π st2).length = (π st).length ∧
      (∀ i (h2 : i < (π st2).length) (h : i < (π st).length),
        nTriple ((π st2).get ⟨i, h2⟩) = nTriple ((π st).get ⟨i, h⟩)) ∧
      (∀ R2 ∈ π st2, ∀ N ∈ allNodesList R2.subAreas,
        (∃ R ∈ π st, nTriple N ∈ (allNodesList R.subAreas).map nTriple) ∨
        nTriple N ∈ rs.map fTriple)
  | [], st, st2 => by
    intro h
    simp only [foldAdd, Option.some.injEq] at h
    subst h
    exact ⟨rfl, fun i h2 h => rfl,
      fun R2 hR2 N hN => Or.inl ⟨R2, hR2, List.mem_map_of_mem nTriple hN⟩⟩
  | r :: rs, st, st2 => by
    intro h
    simp only [foldAdd] at h
    cases hs : f st r with
    | none => rw [hs] at h; simp at h
    | some st1 =>
      rw [hs] at h
      obtain ⟨pth, hupd⟩ := hstep st r st1 hs
      obtain ⟨l1, g1, m1⟩ := updPath_preserve pth (π st) (π st1) (mkChildNode r) hupd
      obtain ⟨l2, g2, m2⟩ := foldAdd_tripleInv f π hstep rs st1 st2 h
      refine ⟨by omega, ?_, ?_⟩
      · intro i h2 hh
        have h1 : i < (π st1).length := by omega
        rw [g2 i h2 h1, g1 i h1 hh]
      · intro R2 hR2 N hN
        rcases m2 R2 hR2 N hN with ⟨R1, hR1, hNt⟩ | hin
        · obtain ⟨N1, hN1, hN1t⟩ := List.mem_map.mp hNt
          rcases m1 R1 hR1 N1 hN1 with ⟨R, hR, hNt2⟩ | hnd
          · exact Or.inl ⟨R, hR, hN1t ▸ hNt2⟩
          · right
            have hN1e : N1 = mkChildNode r := by
              rw [allNodes_eq] at hnd
              simpa [mkChildNode, Area.subAreas, allNodesList] using hnd
            simp only [List.map_cons]
            rw [← hN1t, hN1e]
            exact List.mem_cons.mpr (Or.inl rfl)
        · right
          simp only [List.map_cons]
          exact List.mem_cons_of_mem _ hin

theorem addCity_shape (po : List (GoStr × Nat)) (st : List Area × List (GoStr × Nat))
    (c : flatNode) (st2 : List Area × List (GoStr × Nat)) (h : addCity po st c = some st2) :
    ∃ pth, updPath (appendChild (mkChildNode c)) st.1 pth = some st2.1 := by
  cases hg : getProvince c.code with
  | none => simp [addCity, hg] at h
  | some pCode =>
    cases hc : st.1[lookupD po pCode]? with
    | none => simp [addCity, hg, hc] at h
    | some p =>
      simp only [addCity, hg, hc, Option.some.injEq] at h
      subst h
      refine ⟨[lookupD po pCode], ?_⟩
      simp only [updPath, hc, updTree]
      rfl

theorem addArea_shape (po co : List (GoStr × Nat)) (st : List Area × List (GoStr × Nat))
    (a : flatNode) (st2 : List Area × List (GoStr × Nat)) (h : addArea po co st a = some st2) :
    ∃ pth, updPath (appendChild (mkChildNode a)) st.1 pth = some st2.1 := by
  cases hg : getProvince a.code with
  | none => simp [addArea, hg] at h
  | some pCode =>
    cases hg2 : getCity a.code with
    | none => simp [addArea, hg, hg2] at h
    | some cCode =>
      cases hn : nodeAt st.1 [lookupD po pCode, lookupD co cCode] with
      | none => simp [addArea, hg, hg2, hn] at h
      | some cNode =>
        cases hu : updPath (appendChild (mkChildNode a)) st.1
            [lookupD po pCode, lookupD co cCode] with
        | none => simp [addArea, hg, hg2, hn, hu] at h
        | some ts2 =>
          simp only [addArea, hg, hg2, hn, hu, Option.some.injEq] at h
          subst h
          exact ⟨[lookupD po pCode, lookupD co cCode], hu⟩

theorem addStreet_shape (po co ao : List (GoStr × Nat)) (ts : List Area)
    (s : flatNode) (ts2 : List Area) (h : addStreet po co ao ts s = some ts2) :
    ∃ pth, updPath (appendChild (mkChildNode s)) ts pth = some ts2 := by
  cases hg : getProvince s.code with
  | none => simp [addStreet, hg] at h
  | some pCode =>
    cases hg2 : getCity s.code with
    | none => simp [addStreet, hg, hg2] at h
    | some cCode =>
      cases hg3 : getArea s.code with
      | none => simp [addStreet, hg, hg2, hg3] at h
      | some aCode =>
        simp only [addStreet, hg, hg2, hg3] at h
        exact ⟨[lookupD po pCode, lookupD co cCode, lookupD ao aCode], h⟩

/-- Claim C10: buildTrees sets the ParentCode of every province root to the
    literal "0" (regardless of the parent_code present in the province
    record) while keeping its code and name, and every non-root node
    carries code, name and parent_code copied verbatim from some city, area
    or street input record. -/
theorem buildTrees_fields_verbatim (ps cs as ss : List flatNode) (ts : List Area)
    (hb : buildTrees ps cs as ss = some ts) :
    ts.length = ps.length ∧
    (∀ i (h2 : i < ts.length) (h : i < ps.length),
      nTriple (ts.get ⟨i, h2⟩) = ((ps.get ⟨i, h⟩).code, (ps.get ⟨i, h⟩).name, ['0'])) ∧
    (∀ R ∈ ts, ∀ N ∈ allNodesList R.subAreas,
      nTriple N ∈ (cs ++ as ++ ss).map fTriple) := by
  cases h1 : foldAdd (addCity (orderMap ps)) (ps.map mkRoot, []) cs with
  | none => simp [buildTrees, h1] at hb
  | some st1 =>
    obtain ⟨ts1, co⟩ := st1
    cases h2 : foldAdd (addArea (orderMap ps) co) (ts1, []) as with
    | none => simp [buildTrees, h1, h2] at hb
    | some st2 =>
      obtain ⟨ts2, ao⟩ := st2
      replace hb : foldAdd (addStreet (orderMap ps) co ao) ts2 ss = some ts := by
        simpa only [buildTrees, h1, h2] using hb
      obtain ⟨l1, g1, m1⟩ := foldAdd_tripleInv (addCity (orderMap ps)) Prod.fst
        (fun st r st2 h => addCity_shape (orderMap ps) st r st2 h) cs
        (ps.map mkRoot, []) (ts1, co) h1
      obtain ⟨l2, g2, m2⟩ := foldAdd_tripleInv (addArea (orderMap ps) co) Prod.fst
        (fun st r st2 h => addArea_shape (orderMap ps) co st r st2 h) as
        (ts1, []) (ts2, ao) h2
      obtain ⟨l3, g3, m3⟩ := foldAdd_tripleInv (addStreet (orderMap ps) co ao)
        (fun x => x)
        (fun st r st2 h => addStreet_shape (orderMap ps) co ao st r st2 h) ss
        ts2 ts hb
      simp only [List.length_map] at l1
      refine ⟨by simp only [l3, l2, l1], ?_, ?_⟩
      · intro i h2i hi
        have hi1 : i < ts1.length := by omega
        have hi2 : i < ts2.length := by omega
        have hi0 : i < (ps.map mkRoot).length := by
          simp only [List.length_map]
          omega
        rw [g3 i h2i hi2, g2 i hi2 hi1, g1 i hi1 hi0]
        rw [List.get_eq_getElem, List.getElem_map]
        rfl
      · intro R hR N hN
        have hbase : ∀ R0, R0 ∈ ps.map mkRoot → ∀ N0 ∈ allNodesList R0.subAreas,
            False := by
          intro R0 hR0 N0 hN0
          obtain ⟨p, hp, hpe⟩ := List.mem_map.mp hR0
          rw [← hpe] at hN0
          simp [mkRoot, Area.subAreas, allNodesList] at hN0
        rcases m3 R hR N hN with ⟨R2, hR2, hNt⟩ | hin
        · obtain ⟨N2, hN2, hN2t⟩ := List.mem_map.mp hNt
          rcases m2 R2 hR2 N2 hN2 with ⟨R1, hR1, hNt1⟩ | hin2
          · obtain ⟨N1, hN1, hN1t⟩ := List.mem_map.mp hNt1
            rcases m1 R1 hR1 N1 hN1 with ⟨R0, hR0, hNt0⟩ | hin1
            · obtain ⟨N0, hN0, _⟩ := List.mem_map.mp hNt0
              exact absurd hN0 (by intro hx; exact hbase R0 hR0 N0 hx)
            · rw [List.map_append, List.map_append]
              refine List.mem_append.mpr (Or.inl (List.mem_append.mpr (Or.inl ?_)))
              rw [← hN2t, ← hN1t]
              exact hin1
          · rw [List.map_append, List.map_append]
            refine List.mem_append.mpr (Or.inl (List.mem_append.mpr (Or.inr ?_)))
            rw [← hN2t]
            exact hin2
        · rw [List.map_append, List.map_append]
          exact List.mem_append.mpr (Or.inr hin)

theorem buildTrees_fields_verbatim_witness :
    exForest.length = exPs.length ∧
    (∀ i (h2 : i < exForest.length) (h : i < exPs.length),
      nTriple (exForest.get ⟨i, h2⟩) =
        ((exPs.get ⟨i, h⟩).code, (exPs.get ⟨i, h⟩).name, ['0'])) ∧
    (∀ R ∈ exForest, ∀ N ∈ allNodesList R.subAreas,
      nTriple N ∈ (exCs ++ exAs ++ exSs).map fTriple) :=
  buildTrees_fields_verbatim exPs exCs exAs exSs exForest rfl

/- Order-map lookup characterization (claims C5 and C7). -/

theorem lookupD_append_none (m1 m2 : List (GoStr × Nat)) (k : GoStr)
    (h : ∀ e ∈ m1, e.1 ≠ k) : lookupD (m1 ++ m2) k = lookupD m2 k := by
  induction m1 with
  | nil => rfl
  | cons e m ih =>
    have he : e.1 ≠ k := h e (List.mem_cons_self e m)
    simp only [List.cons_append, lookupD, if_neg he]
    exact ih (fun e2 h2 => h e2 (List.mem_cons_of_mem e h2))

theorem lookupD_append_found (m1 m2 : List (GoStr × Nat)) (k : GoStr)
    (h : ∃ e ∈ m1, e.1 = k) : lookupD (m1 ++ m2) k = lookupD m1 k := by
  induction m1 with
  | nil =>
    obtain ⟨e, he, _⟩ := h
    simp at he
  | cons e m ih =>
    by_cases hek : e.1 = k
    · simp only [List.cons_append, lookupD, if_pos hek]
    · simp only [List.cons_append, lookupD, if_neg hek]
      refine ih ?_
      obtain ⟨e2, he2, he2k⟩ := h
      rcases List.mem_cons.mp he2 with rfl | h3
      · exact absurd he2k hek
      · exact ⟨e2, h3, he2k⟩

theorem orderFrom_mem : ∀ (rs : List flatNode) (k i : Nat) (h : i < rs.length),
    ((rs.get ⟨i, h⟩).code, k + i) ∈ orderFrom k rs
  | [], k, i, h => by simp at h
  | r :: rest, k, 0, h => by
    simp only [orderFrom, List.get_eq_getElem, List.getElem_cons_zero]
    exact List.mem_append.mpr (Or.inr (by simp))
  | r :: rest, k, i + 1, h => by
    simp only [orderFrom, List.get_eq_getElem, List.getElem_cons_succ]
    refine List.mem_append.mpr (Or.inl ?_)
    have hlt : i < rest.length := Nat.lt_of_succ_lt_succ h
    have hmem := orderFrom_mem rest (k + 1) i hlt
    have e : k + 1 + i = k + (i + 1) := by omega
    rw [e] at hmem
    simpa using hmem

theorem lookupD_orderFrom : ∀ (rs : List flatNode), (rs.map flatNode.code).Nodup →
    ∀ (k i : Nat) (h : i < rs.length),
      lookupD (orderFrom k rs) ((rs.get ⟨i, h⟩).code) = k + i
  | [], _, k, i, h => by simp at h
  | r :: rest, hnod, k, 0, h => by
    simp only [orderFrom, List.get_eq_getElem, List.getElem_cons_zero]
    rw [lookupD_append_none]
    · simp [lookupD]
    · intro e he
      obtain ⟨r2, hr2, he2⟩ := orderFrom_keys rest (k + 1) e he
      rw [he2]
      intro hco
      simp only [List.map_cons, List.nodup_cons] at hnod
      exact hnod.1 (hco ▸ List.mem_map_of_mem flatNode.code hr2)
  | r :: rest, hnod, k, i + 1, h => by
    simp only [orderFrom, List.get_eq_getElem, List.getElem_cons_succ]
    have hlt : i < rest.length := Nat.lt_of_succ_lt_succ h
    rw [lookupD_append_found]
    · have hnod2 : (rest.map flatNode.code).Nodup := by
        simp only [List.map_cons, List.nodup_cons] at hnod
        exact hnod.2
      have hr := lookupD_orderFrom rest hnod2 (k + 1) i hlt
      simp only [List.get_eq_getElem] at hr
      rw [hr]
      omega
    · exact ⟨_, orderFrom_mem rest (k + 1) i hlt, rfl⟩

theorem lookupD_orderMap (ps : List flatNode) (hp : (ps.map flatNode.code).Nodup)
    (i : Nat) (h : i < ps.length) :
    lookupD (orderMap ps) ((ps.get ⟨i, h⟩).code) = i := by
  have := lookupD_orderFrom ps hp 0 i h
  simpa [orderMap] using this

/- Code-prefix compatibility between levels. -/

theorem getProvince_getCity (code cc : GoStr) (h : getCity code = some cc) :
    getProvince cc = getProvince code := by
  simp only [getCity] at h
  by_cases h4 : 4 ≤ code.length
  · rw [if_pos h4] at h
    obtain rfl := (Option.some_inj.mp h).symm
    have hlen : (code.take 4 ++ ['0', '0']).length = 6 := by
      simp only [List.length_append, List.length_take, List.length_cons, List.length_nil]
      omega
    simp only [getProvince, hlen]
    rw [if_pos (by omega), if_pos (by omega)]
    have ht : (code.take 4 ++ ['0', '0']).take 2 = code.take 2 := by
      rw [List.take_append_of_le_length (by simp only [List.length_take]; omega),
        List.take_take]
      norm_num
    rw [ht]
  · rw [if_neg h4] at h
    exact absurd h (by simp)

theorem getProvince_getArea (code ac : GoStr) (h : getArea code = some ac) :
    getProvince ac = getProvince code := by
  simp only [getArea] at h
  by_cases h6 : 6 ≤ code.length
  · rw [if_pos h6] at h
    obtain rfl := (Option.some_inj.mp h).symm
    have hlen : (code.take 6).length = 6 := by
      simp only [List.length_take]
      omega
    simp only [getProvince, hlen]
    rw [if_pos (by omega), if_pos (by omega)]
    have ht : (code.take 6).take 2 = code.take 2 := by
      rw [List.take_take]
      norm_num
    rw [ht]
  · rw [if_neg h6] at h
    exact absurd h (by simp)

theorem getCity_getArea (code ac : GoStr) (h : getArea code = some ac) :
    getCity ac = getCity code := by
  simp only [getArea] at h
  by_cases h6 : 6 ≤ code.length
  · rw [if_pos h6] at h
    obtain rfl := (Option.some_inj.mp h).symm
    have hlen : (code.take 6).length = 6 := by
      simp only [List.length_take]
      omega
    simp only [getCity, hlen]
    rw [if_pos (by omega), if_pos (by omega)]
    have ht : (code.take 6).take 4 = code.take 4 := by
      rw [List.take_take]
      norm_num
    rw [ht]
  · rw [if_neg h6] at h
    exact absurd h (by simp)

/- Loop-body inversion lemmas. -/

theorem addCity_inv (po : List (GoStr × Nat)) (ts : List Area) (co : List (GoStr × Nat))
    (c : flatNode) (st2 : List Area × List (GoStr × Nat))
    (h : addCity po (ts, co) c = some st2) :
    ∃ pCode p, getProvince c.code = some pCode ∧ ts[lookupD po pCode]? = some p ∧
      st2 = (ts.set (lookupD po pCode) (appendChild (mkChildNode c) p),
             (c.code, p.subAreas.length) :: co) := by
  cases hg : getProvince c.code with
  | none => simp [addCity, hg] at h
  | some pCode =>
    cases hc : ts[lookupD po pCode]? with
    | none => simp [addCity, hg, hc] at h
    | some p =>
      simp only [addCity, hg, hc, Option.some.injEq] at h
      exact ⟨pCode, p, rfl, hc, h.symm⟩

theorem addArea_inv (po co : List (GoStr × Nat)) (ts : List Area) (ao : List (GoStr × Nat))
    (a : flatNode) (st2 : List Area × List (GoStr × Nat))
    (h : addArea po co (ts, ao) a = some st2) :
    ∃ pCode cCode p0 c0, getProvince a.code = some pCode ∧ getCity a.code = some cCode ∧
      ts[lookupD po pCode]? = some p0 ∧
      p0.subAreas[lookupD co cCode]? = some c0 ∧
      st2 = (ts.set (lookupD po pCode)
               (p0.withSubAreas (p0.subAreas.set (lookupD co cCode)
                 (appendChild (mkChildNode a) c0))),
             (a.code, c0.subAreas.length) :: ao) := by
  cases hg : getProvince a.code with
  | none => simp [addArea, hg] at h
  | some pCode =>
    cases hg2 : getCity a.code with
    | none => simp [addArea, hg, hg2] at h
    | some cCode =>
      cases hp : ts[lookupD po pCode]? with
      | none => simp [addArea, hg, hg2, nodeAt, updPath, hp] at h
      | some p0 =>
        cases hc0 : p0.subAreas[lookupD co cCode]? with
        | none =>
          simp [addArea, hg, hg2, nodeAt, updPath, updTree, subtreeAt, hp, hc0] at h
        | some c0 =>
          simp only [addArea, hg, hg2, nodeAt, updPath, updTree, subtreeAt, hp, hc0,
            Option.map_some', Option.some.injEq] at h
          exact ⟨pCode, cCode, p0, c0, rfl, rfl, hp, hc0, h.symm⟩

theorem addStreet_inv (po co ao : List (GoStr × Nat)) (ts : List Area)
    (s : flatNode) (ts2 : List Area) (h : addStreet po co ao ts s = some ts2) :
    ∃ pCode cCode aCode p0 c0 a0,
      getProvince s.code = some pCode ∧ getCity s.code = some cCode ∧
      getArea s.code = some aCode ∧
      ts[lookupD po pCode]? = some p0 ∧
      p0.subAreas[lookupD co cCode]? = some c0 ∧
      c0.subAreas[lookupD ao aCode]? = some a0 ∧
      ts2 = ts.set (lookupD po pCode)
              (p0.withSubAreas (p0.subAreas.set (lookupD co cCode)
                (c0.withSubAreas (c0.subAreas.set (lookupD ao aCode)
                  (appendChild (mkChildNode s) a0))))) := by
  cases hg : getProvince s.code with
  | none => simp [addStreet, hg] at h
  | some pCode =>
    cases hg2 : getCity s.code with
    | none => simp [addStreet, hg, hg2] at h
    | some cCode =>
      cases hg3 : getArea s.code with
      | none => simp [addStreet, hg, hg2, hg3] at h
      | some aCode =>
        cases hp : ts[lookupD po pCode]? with
        | none => simp [addStreet, hg, hg2, hg3, updPath, hp] at h
        | some p0 =>
          cases hc0 : p0.subAreas[lookupD co cCode]? with
          | none => simp [addStreet, hg, hg2, hg3, updPath, updTree, hp, hc0] at h
          | some c0 =>
            cases ha0 : c0.subAreas[lookupD ao aCode]? with
            | none => simp [addStreet, hg, hg2, hg3, updPath, updTree, hp, hc0, ha0] at h
            | some a0 =>
              simp only [addStreet, hg, hg2, hg3, updPath, updTree, hp, hc0, ha0,
                Option.map_some', Option.some.injEq] at h
              exact ⟨pCode, cCode, aCode, p0, c0, a0, rfl, rfl, rfl, hp, hc0, ha0, h.symm⟩

/- appendList algebra. -/

theorem appendList_nil : ∀ t : Area, appendList t [] = t
  | .mk c n pc l r subs => by
    simp [appendList, Area.withSubAreas, Area.subAreas]

theorem appendList_append : ∀ (t : Area) (l1 l2 : List Area),
    appendList (appendList t l1) l2 = appendList t (l1 ++ l2)
  | .mk c n pc l r subs, l1, l2 => by
    simp [appendList, Area.withSubAreas, Area.subAreas, List.append_assoc]

theorem appendChild_eq (nd t : Area) : appendChild nd t = appendList t [nd] := rfl

theorem appendList_mkRoot (p : flatNode) (l : List Area) :
    appendList (mkRoot p) l = Area.mk p.code p.name ['0'] 0 0 l := by
  simp [appendList, mkRoot, Area.withSubAreas, Area.subAreas]

theorem appendList_mkChildNode (r : flatNode) (l : List Area) :
    appendList (mkChildNode r) l = Area.mk r.code r.name r.parent_code 0 0 l := by
  simp [appendList, mkChildNode, Area.withSubAreas, Area.subAreas]

/- Phase 1: the city loop of buildTrees. -/

theorem appendChild_length (nd : Area) : ∀ t : Area,
    (appendChild nd t).subAreas.length = t.subAreas.length + 1
  | .mk c n pc l r subs => by
    simp [appendChild, Area.withSubAreas, Area.subAreas]

theorem cityFold_keys (po : List (GoStr × Nat)) : ∀ (cs : List flatNode)
    (st st2 : List Area × List (GoStr × Nat)),
    foldAdd (addCity po) st cs = some st2 →
    ∃ m, st2.2 = m ++ st.2 ∧ ∀ e ∈ m, e.1 ∈ cs.map flatNode.code
  | [], st, st2 => by
    intro h
    simp only [foldAdd, Option.some.injEq] at h
    subst h
    exact ⟨[], rfl, by simp⟩
  | c :: rest, st, st2 => by
    intro h
    obtain ⟨ts, co⟩ := st
    simp only [foldAdd] at h
    cases hs : addCity po (ts, co) c with
    | none => rw [hs] at h; simp at h
    | some st1 =>
      rw [hs] at h
      obtain ⟨pCode, p, hg, hp, hst1⟩ := addCity_inv po ts co c st1 hs
      obtain ⟨m, hm, hkeys⟩ := cityFold_keys po rest st1 st2 h
      subst hst1
      refine ⟨m ++ [(c.code, p.subAreas.length)], by simpa using hm, ?_⟩
      intro e he
      rcases List.mem_append.mp he with h2 | h2
      · exact List.mem_cons_of_mem _ (hkeys e h2)
      · simp only [List.mem_singleton] at h2
        subst h2
        simp

theorem cityFold_char (po : List (GoStr × Nat)) : ∀ (cs : List flatNode)
    (st st2 : List Area × List (GoStr × Nat)),
    foldAdd (addCity po) st cs = some st2 →
    st2.1.length = st.1.length ∧
    ∀ i p, st.1[i]? = some p →
      st2.1[i]? = some (appendList p ((cs.filter (cityMatch po i)).map mkChildNode))
  | [], st, st2 => by
    intro h
    simp only [foldAdd, Option.some.injEq] at h
    subst h
    refine ⟨rfl, fun i p hp => ?_⟩
    simp only [List.filter_nil, List.map_nil, appendList_nil]
    exact hp
  | c :: rest, st, st2 => by
    intro h
    obtain ⟨ts, co⟩ := st
    simp only [foldAdd] at h
    cases hs : addCity po (ts, co) c with
    | none => rw [hs] at h; simp at h
    | some st1 =>
      rw [hs] at h
      obtain ⟨pCode, p0, hg, hp0, hst1⟩ := addCity_inv po ts co c st1 hs
      obtain ⟨l2, g2⟩ := cityFold_char po rest st1 st2 h
      subst hst1
      simp only [List.length_set] at l2
      refine ⟨l2, fun i p hp => ?_⟩
      have hplt : lookupD po pCode < ts.length := (List.getElem?_eq_some.mp hp0).1
      by_cases hii : lookupD po pCode = i
      · subst hii
        have hpe : p = p0 := by
          rw [hp0] at hp
          exact (Option.some_inj.mp hp).symm
        rw [hpe]
        have hs1 : (ts.set (lookupD po pCode) (appendChild (mkChildNode c) p0))[lookupD po
            pCode]? = some (appendChild (mkChildNode c) p0) :=
          List.getElem?_set_eq hplt
        have hrec := g2 (lookupD po pCode) _ hs1
        rw [hrec]
        have hcm : cityMatch po (lookupD po pCode) c = true := by
          simp [cityMatch, hg]
        rw [List.filter_cons, if_pos hcm, List.map_cons, appendChild_eq, appendList_append,
          List.singleton_append]
      · have hs1 : (ts.set (lookupD po pCode) (appendChild (mkChildNode c) p0))[i]? =
            some p := by
          rw [List.getElem?_set_ne hii]
          exact hp
        have := g2 i p hs1
        rw [this]
        have hcm : cityMatch po i c = false := by
          simp only [cityMatch, hg, Option.map_some', decide_eq_false_iff_not,
            Option.some.injEq]
          exact fun he => hii he
        rw [List.filter_cons, if_neg (by simp [hcm])]

theorem cityFold_lookup (po : List (GoStr × Nat)) : ∀ (l : List flatNode) (c : flatNode)
    (r : List flatNode) (ts : List Area) (co : List (GoStr × Nat))
    (st2 : List Area × List (GoStr × Nat)),
    ((l ++ c :: r).map flatNode.code).Nodup →
    (∀ e ∈ co, e.1 ≠ c.code) →
    foldAdd (addCity po) (ts, co) (l ++ c :: r) = some st2 →
    ∀ pCode, getProvince c.code = some pCode →
    ∃ p, ts[lookupD po pCode]? = some p ∧
      lookupD st2.2 c.code = p.subAreas.length +
        (l.filter (cityMatch po (lookupD po pCode))).length
  | [], c, r, ts, co, st2 => by
    intro hnod hco h pCode hg
    simp only [List.nil_append, foldAdd] at h
    cases hs : addCity po (ts, co) c with
    | none => rw [hs] at h; simp at h
    | some st1 =>
      rw [hs] at h
      obtain ⟨pCode2, p, hg2, hp, hst1⟩ := addCity_inv po ts co c st1 hs
      rw [hg] at hg2
      obtain rfl := Option.some_inj.mp hg2
      subst hst1
      obtain ⟨m, hm, hkeys⟩ := cityFold_keys po r _ st2 h
      refine ⟨p, hp, ?_⟩
      rw [hm]
      rw [lookupD_append_none]
      · simp [lookupD, List.filter_nil]
      · intro e he hek
        have h3 := hkeys e he
        rw [hek] at h3
        simp only [List.nil_append, List.map_cons, List.nodup_cons] at hnod
        exact hnod.1 h3
  | c0 :: l2, c, r, ts, co, st2 => by
    intro hnod hco h pCode hg
    simp only [List.cons_append, foldAdd] at h
    cases hs : addCity po (ts, co) c0 with
    | none => rw [hs] at h; simp at h
    | some st1 =>
      rw [hs] at h
      obtain ⟨pCode0, p0, hg0, hp0, hst1⟩ := addCity_inv po ts co c0 st1 hs
      subst hst1
      have hne : c0.code ≠ c.code := by
        simp only [List.cons_append, List.map_cons, List.nodup_cons] at hnod
        intro he
        refine hnod.1 ?_
        rw [he]
        simp only [List.map_append, List.map_cons, List.mem_append, List.mem_cons]
        exact Or.inr (Or.inl trivial)
      have hnod2 : ((l2 ++ c :: r).map flatNode.code).Nodup := by
        simp only [List.cons_append, List.map_cons, List.nodup_cons] at hnod
        simpa using hnod.2
      have hco1 : ∀ e ∈ ((c0.code, p0.subAreas.length) :: co), e.1 ≠ c.code := by
        intro e he
        rcases List.mem_cons.mp he with rfl | h2
        · exact hne
        · exact hco e h2
      obtain ⟨p1, hp1, heq⟩ := cityFold_lookup po l2 c r _ _ st2 hnod2 hco1 h pCode hg
      by_cases hii : lookupD po pCode0 = lookupD po pCode
      · rw [hii] at hp0
        have hlt : lookupD po pCode < ts.length := (List.getElem?_eq_some.mp hp0).1
        rw [hii, List.getElem?_set_eq hlt] at hp1
        obtain rfl := (Option.some_inj.mp hp1).symm
        refine ⟨p0, hp0, ?_⟩
        rw [heq, appendChild_length]
        have hcm : cityMatch po (lookupD po pCode) c0 = true := by
          simp [cityMatch, hg0, hii]
        rw [List.filter_cons, if_pos hcm]
        simp only [List.length_cons]
        omega
      · rw [List.getElem?_set_ne hii] at hp1
        refine ⟨p1, hp1, ?_⟩
        rw [heq]
        have hcm : cityMatch po (lookupD po pCode) c0 = false := by
          simp only [cityMatch, hg0, Option.map_some', decide_eq_false_iff_not,
            Option.some.injEq]
          exact fun he => hii he
        rw [List.filter_cons, if_neg (by simp [hcm])]

/- Phase 2: the area loop of buildTrees. -/

theorem withSubAreas_self : ∀ t : Area, t.withSubAreas t.subAreas = t
  | .mk c n pc l r subs => rfl

theorem withSubAreas_withSubAreas : ∀ (t : Area) (l1 l2 : List Area),
    (t.withSubAreas l1).withSubAreas l2 = t.withSubAreas l2
  | .mk c n pc l r subs, l1, l2 => rfl

theorem areaFold_keys (po co : List (GoStr × Nat)) : ∀ (rs : List flatNode)
    (st st2 : List Area × List (GoStr × Nat)),
    foldAdd (addArea po co) st rs = some st2 →
    ∃ m, st2.2 = m ++ st.2 ∧ ∀ e ∈ m, e.1 ∈ rs.map flatNode.code
  | [], st, st2 => by
    intro h
    simp only [foldAdd, Option.some.injEq] at h
    subst h
    exact ⟨[], rfl, by simp⟩
  | a :: rest, st, st2 => by
    intro h
    obtain ⟨ts, ao⟩ := st
    simp only [foldAdd] at h
    cases hs : addArea po co (ts, ao) a with
    | none => rw [hs] at h; simp at h
    | some st1 =>
      rw [hs] at h
      obtain ⟨pCode, cCode, p0, c0, hg, hg2, hp, hc0, hst1⟩ := addArea_inv po co ts ao a st1 hs
      obtain ⟨m, hm, hkeys⟩ := areaFold_keys po co rest st1 st2 h
      subst hst1
      refine ⟨m ++ [(a.code, c0.subAreas.length)], by simpa using hm, ?_⟩
      intro e he
      rcases List.mem_append.mp he with h2 | h2
      · exact List.mem_cons_of_mem _ (hkeys e h2)
      · simp only [List.mem_singleton] at h2
        subst h2
        simp

theorem areaFold_char (po co : List (GoStr × Nat)) : ∀ (rs : List flatNode)
    (st st2 : List Area × List (GoStr × Nat)),
    foldAdd (addArea po co) st rs = some st2 →
    st2.1.length = st.1.length ∧
    ∀ i p, st.1[i]? = some p →
      ∃ q, st2.1[i]? = some q ∧
        q.subAreas.length = p.subAreas.length ∧
        q = p.withSubAreas q.subAreas ∧
        ∀ j c, p.subAreas[j]? = some c →
          q.subAreas[j]? =
            some (appendList c ((rs.filter (areaMatch po co i j)).map mkChildNode))
  | [], st, st2 => by
    intro h
    simp only [foldAdd, Option.some.injEq] at h
    subst h
    refine ⟨rfl, fun i p hp => ⟨p, hp, rfl, (withSubAreas_self p).symm, fun j c hc => ?_⟩⟩
    simp only [List.filter_nil, List.map_nil, appendList_nil]
    exact hc
  | a :: rest, st, st2 => by
    intro h
    obtain ⟨ts, ao⟩ := st
    simp only [foldAdd] at h
    cases hs : addArea po co (ts, ao) a with
    | none => rw [hs] at h; simp at h
    | some st1 =>
      rw [hs] at h
      obtain ⟨pCode, cCode, p0, c0, hg, hg2, hp0, hc0, hst1⟩ :=
        addArea_inv po co ts ao a st1 hs
      obtain ⟨l2, g2⟩ := areaFold_char po co rest st1 st2 h
      subst hst1
      simp only [List.length_set] at l2
      have hplt : lookupD po pCode < ts.length := (List.getElem?_eq_some.mp hp0).1
      have hclt : lookupD co cCode < p0.subAreas.length := (List.getElem?_eq_some.mp hc0).1
      refine ⟨l2, fun i p hp => ?_⟩
      by_cases hii : lookupD po pCode = i
      · subst hii
        have hpe : p = p0 := by
          rw [hp0] at hp
          exact (Option.some_inj.mp hp).symm
        rw [hpe]
        have hs1 : (ts.set (lookupD po pCode)
            (p0.withSubAreas (p0.subAreas.set (lookupD co cCode)
              (appendChild (mkChildNode a) c0))))[lookupD po pCode]? =
            some (p0.withSubAreas (p0.subAreas.set (lookupD co cCode)
              (appendChild (mkChildNode a) c0))) :=
          List.getElem?_set_eq hplt
        obtain ⟨q, hq, hqlen, hqw, hqj⟩ := g2 (lookupD po pCode) _ hs1
        refine ⟨q, hq, ?_, ?_, ?_⟩
        · rw [hqlen]
          simp only [subAreas_withSubAreas, List.length_set]
        · rw [hqw, withSubAreas_withSubAreas, subAreas_withSubAreas]
        · intro j c hc
          by_cases hjj : lookupD co cCode = j
          · subst hjj
            have hce : c = c0 := by
              rw [hc0] at hc
              exact (Option.some_inj.mp hc).symm
            rw [hce]
            have hs2 : (p0.withSubAreas (p0.subAreas.set (lookupD co cCode)
                (appendChild (mkChildNode a) c0))).subAreas[lookupD co cCode]? =
                some (appendChild (mkChildNode a) c0) := by
              rw [subAreas_withSubAreas]
              exact List.getElem?_set_eq hclt
            have := hqj (lookupD co cCode) _ hs2
            rw [this]
            have hcm : areaMatch po co (lookupD po pCode) (lookupD co cCode) a = true := by
              simp [areaMatch, hg, hg2]
            rw [List.filter_cons, if_pos hcm, List.map_cons, appendChild_eq,
              appendList_append, List.singleton_append]
          · have hs2 : (p0.withSubAreas (p0.subAreas.set (lookupD co cCode)
                (appendChild (mkChildNode a) c0))).subAreas[j]? = some c := by
              rw [subAreas_withSubAreas, List.getElem?_set_ne hjj]
              exact hc
            have := hqj j c hs2
            rw [this]
            have hcm : areaMatch po co (lookupD po pCode) j a = false := by
              simp only [areaMatch, hg, hg2, Option.map_some', decide_eq_false_iff_not,
                Option.some.injEq, not_and]
              exact fun _ he => hjj he
            rw [List.filter_cons, if_neg (by simp [hcm])]
      · have hs1 : (ts.set (lookupD po pCode)
            (p0.withSubAreas (p0.subAreas.set (lookupD co cCode)
              (appendChild (mkChildNode a) c0))))[i]? = some p := by
          rw [List.getElem?_set_ne hii]
          exact hp
        obtain ⟨q, hq, hqlen, hqw, hqj⟩ := g2 i p hs1
        refine ⟨q, hq, hqlen, hqw, fun j c hc => ?_⟩
        have := hqj j c hc
        rw [this]
        have hcm : areaMatch po co i j a = false := by
          simp only [areaMatch, hg, hg2, Option.map_some', decide_eq_false_iff_not,
            Option.some.injEq, not_and]
          exact fun he => absurd he hii
        rw [List.filter_cons, if_neg (by simp [hcm])]

theorem areaFold_lookup (po co : List (GoStr × Nat)) : ∀ (l : List flatNode) (a : flatNode)
    (r : List flatNode) (ts : List Area) (ao : List (GoStr × Nat))
    (st2 : List Area × List (GoStr × Nat)),
    ((l ++ a :: r).map flatNode.code).Nodup →
    (∀ e ∈ ao, e.1 ≠ a.code) →
    foldAdd (addArea po co) (ts, ao) (l ++ a :: r) = some st2 →
    ∀ pCode cCode, getProvince a.code = some pCode → getCity a.code = some cCode →
    ∃ p0 c0, ts[lookupD po pCode]? = some p0 ∧
      p0.subAreas[lookupD co cCode]? = some c0 ∧
      lookupD st2.2 a.code = c0.subAreas.length +
        (l.filter (areaMatch po co (lookupD po pCode) (lookupD co cCode))).length
  | [], a, r, ts, ao, st2 => by
    intro hnod hco h pCode cCode hg hgc
    simp only [List.nil_append, foldAdd] at h
    cases hs : addArea po co (ts, ao) a with
    | none => rw [hs] at h; simp at h
    | some st1 =>
      rw [hs] at h
      obtain ⟨pCode2, cCode2, p0, c0, hg2, hgc2, hp, hc0, hst1⟩ :=
        addArea_inv po co ts ao a st1 hs
      rw [hg] at hg2
      obtain rfl := Option.some_inj.mp hg2
      rw [hgc] at hgc2
      obtain rfl := Option.some_inj.mp hgc2
      subst hst1
      obtain ⟨m, hm, hkeys⟩ := areaFold_keys po co r _ st2 h
      refine ⟨p0, c0, hp, hc0, ?_⟩
      rw [hm]
      rw [lookupD_append_none]
      · simp [lookupD, List.filter_nil]
      · intro e he hek
        have h3 := hkeys e he
        rw [hek] at h3
        simp only [List.nil_append, List.map_cons, List.nodup_cons] at hnod
        exact hnod.1 h3
  | a0 :: l2, a, r, ts, ao, st2 => by
    intro hnod hco h pCode cCode hg hgc
    simp only [List.cons_append, foldAdd] at h
    cases hs : addArea po co (ts, ao) a0 with
    | none => rw [hs] at h; simp at h
    | some st1 =>
      rw [hs] at h
      obtain ⟨pCode0, cCode0, p0, c0, hg0, hgc0, hp0, hc0, hst1⟩ :=
        addArea_inv po co ts ao a0 st1 hs
      subst hst1
      have hne : a0.code ≠ a.code := by
        simp only [List.cons_append, List.map_cons, List.nodup_cons] at hnod
        intro he
        refine hnod.1 ?_
        rw [he]
        simp only [List.map_append, List.map_cons, List.mem_append, List.mem_cons]
        exact Or.inr (Or.inl trivial)
      have hnod2 : ((l2 ++ a :: r).map flatNode.code).Nodup := by
        simp only [List.cons_append, List.map_cons, List.nodup_cons] at hnod
        simpa using hnod.2
      have hco1 : ∀ e ∈ ((a0.code, c0.subAreas.length) :: ao), e.1 ≠ a.code := by
        intro e he
        rcases List.mem_cons.mp he with rfl | h2
        · exact hne
        · exact hco e h2
      obtain ⟨p1, c1, hp1, hc1, heq⟩ :=
        areaFold_lookup po co l2 a r _ _ st2 hnod2 hco1 h pCode cCode hg hgc
      have hplt : lookupD po pCode0 < ts.length := (List.getElem?_eq_some.mp hp0).1
      by_cases hii : lookupD po pCode0 = lookupD po pCode
      · rw [hii] at hp0 hplt
        rw [hii, List.getElem?_set_eq hplt] at hp1
        have hp1e : p1 = p0.withSubAreas (p0.subAreas.set (lookupD co cCode0)
            (appendChild (mkChildNode a0) c0)) := (Option.some_inj.mp hp1).symm
        rw [hp1e, subAreas_withSubAreas] at hc1
        by_cases hjj : lookupD co cCode0 = lookupD co cCode
        · have hclt : lookupD co cCode < p0.subAreas.length := by
            rw [← hjj]
            exact (List.getElem?_eq_some.mp hc0).1
          rw [hjj] at hc0
          rw [hjj, List.getElem?_set_eq hclt] at hc1
          have hc1e : c1 = appendChild (mkChildNode a0) c0 := (Option.some_inj.mp hc1).symm
          refine ⟨p0, c0, hp0, hc0, ?_⟩
          rw [heq, hc1e, appendChild_length]
          have hcm : areaMatch po co (lookupD po pCode) (lookupD co cCode) a0 = true := by
            simp [areaMatch, hg0, hgc0, hii, hjj]
          rw [List.filter_cons, if_pos hcm]
          simp only [List.length_cons]
          omega
        · rw [List.getElem?_set_ne hjj] at hc1
          refine ⟨p0, c1, hp0, hc1, ?_⟩
          rw [heq]
          have hcm : areaMatch po co (lookupD po pCode) (lookupD co cCode) a0 = false := by
            simp only [areaMatch, hg0, hgc0, Option.map_some', decide_eq_false_iff_not,
              Option.some.injEq, not_and]
            exact fun _ he => hjj he
          rw [List.filter_cons, if_neg (by simp [hcm])]
      · rw [List.getElem?_set_ne hii] at hp1
        refine ⟨p1, c1, hp1, hc1, ?_⟩
        rw [heq]
        have hcm : areaMatch po co (lookupD po pCode) (lookupD co cCode) a0 = false := by
          simp only [areaMatch, hg0, hgc0, Option.map_some', decide_eq_false_iff_not,
            Option.some.injEq, not_and]
          exact fun he => absurd he hii
        rw [List.filter_cons, if_neg (by simp [hcm])]

/- Phase 3: the street loop of buildTrees. -/

theorem streetFold_char (po co ao : List (GoStr × Nat)) : ∀ (rs : List flatNode)
    (ts ts2 : List Area),
    foldAdd (addStreet po co ao) ts rs = some ts2 →
    ts2.length = ts.length ∧
    ∀ i p, ts[i]? = some p →
      ∃ q, ts2[i]? = some q ∧
        q.subAreas.length = p.subAreas.length ∧
        q = p.withSubAreas q.subAreas ∧
        ∀ j c, p.subAreas[j]? = some c →
          ∃ d, q.subAreas[j]? = some d ∧
            d.subAreas.length = c.subAreas.length ∧
            d = c.withSubAreas d.subAreas ∧
            ∀ k e, c.subAreas[k]? = some e →
              d.subAreas[k]? = some (appendList e
                ((rs.filter (streetMatch po co ao i j k)).map mkChildNode))
  | [], ts, ts2 => by
    intro h
    simp only [foldAdd, Option.some.injEq] at h
    subst h
    refine ⟨rfl, fun i p hp => ⟨p, hp, rfl, (withSubAreas_self p).symm, fun j c hc =>
      ⟨c, hc, rfl, (withSubAreas_self c).symm, fun k e he => ?_⟩⟩⟩
    simp only [List.filter_nil, List.map_nil, appendList_nil]
    exact he
  | s :: rest, ts, ts2 => by
    intro h
    simp only [foldAdd] at h
    cases hs : addStreet po co ao ts s with
    | none => rw [hs] at h; simp at h
    | some ts1 =>
      rw [hs] at h
      obtain ⟨pCode, cCode, aCode, p0, c0, a0, hg, hgc, hga, hp0, hc0, ha0, hts1⟩ :=
        addStreet_inv po co ao ts s ts1 hs
      obtain ⟨l2, g2⟩ := streetFold_char po co ao rest ts1 ts2 h
      subst hts1
      simp only [List.length_set] at l2
      have hplt : lookupD po pCode < ts.length := (List.getElem?_eq_some.mp hp0).1
      have hclt : lookupD co cCode < p0.subAreas.length := (List.getElem?_eq_some.mp hc0).1
      have halt : lookupD ao aCode < c0.subAreas.length := (List.getElem?_eq_some.mp ha0).1
      refine ⟨l2, fun i p hp => ?_⟩
      by_cases hii : lookupD po pCode = i
      · subst hii
        have hpe : p = p0 := by
          rw [hp0] at hp
          exact (Option.some_inj.mp hp).symm
        rw [hpe]
        have hs1 := List.getElem?_set_eq (l := ts) (a := p0.withSubAreas
          (p0.subAreas.set (lookupD co cCode) (c0.withSubAreas
            (c0.subAreas.set (lookupD ao aCode) (appendChild (mkChildNode s) a0)))))
          hplt
        obtain ⟨q, hq, hqlen, hqw, hqj⟩ := g2 (lookupD po pCode) _ hs1
        refine ⟨q, hq, ?_, ?_, ?_⟩
        · rw [hqlen]
          simp only [subAreas_withSubAreas, List.length_set]
        · rw [hqw, withSubAreas_withSubAreas, subAreas_withSubAreas]
        · intro j c hc
          by_cases hjj : lookupD co cCode = j
          · subst hjj
            have hce : c = c0 := by
              rw [hc0] at hc
              exact (Option.some_inj.mp hc).symm
            rw [hce]
            have hs2 : (p0.withSubAreas (p0.subAreas.set (lookupD co cCode)
                (c0.withSubAreas (c0.subAreas.set (lookupD ao aCode)
                  (appendChild (mkChildNode s) a0))))).subAreas[lookupD co cCode]? =
                some (c0.withSubAreas (c0.subAreas.set (lookupD ao aCode)
                  (appendChild (mkChildNode s) a0))) := by
              rw [subAreas_withSubAreas]
              exact List.getElem?_set_eq hclt
            obtain ⟨d, hd, hdlen, hdw, hdk⟩ := hqj (lookupD co cCode) _ hs2
            refine ⟨d, hd, ?_, ?_, ?_⟩
            · rw [hdlen]
              simp only [subAreas_withSubAreas, List.length_set]
            · rw [hdw, withSubAreas_withSubAreas, subAreas_withSubAreas]
            · intro k e he
              by_cases hkk : lookupD ao aCode = k
              · subst hkk
                have hee : e = a0 := by
                  rw [ha0] at he
                  exact (Option.some_inj.mp he).symm
                rw [hee]
                have hs3 : (c0.withSubAreas (c0.subAreas.set (lookupD ao aCode)
                    (appendChild (mkChildNode s) a0))).subAreas[lookupD ao aCode]? =
                    some (appendChild (mkChildNode s) a0) := by
                  rw [subAreas_withSubAreas]
                  exact List.getElem?_set_eq halt
                have := hdk (lookupD ao aCode) _ hs3
                rw [this]
                have hcm : streetMatch po co ao (lookupD po pCode) (lookupD co cCode)
                    (lookupD ao aCode) s = true := by
                  simp [streetMatch, hg, hgc, hga]
                rw [List.filter_cons, if_pos hcm, List.map_cons, appendChild_eq,
                  appendList_append, List.singleton_append]
              · have hs3 : (c0.withSubAreas (c0.subAreas.set (lookupD ao aCode)
                    (appendChild (mkChildNode s) a0))).subAreas[k]? = some e := by
                  rw [subAreas_withSubAreas, List.getElem?_set_ne hkk]
                  exact he
                have := hdk k e hs3
                rw [this]
                have hcm : streetMatch po co ao (lookupD po pCode) (lookupD co cCode) k
                    s = false := by
                  simp only [streetMatch, hg, hgc, hga, Option.map_some',
                    decide_eq_false_iff_not, Option.some.injEq, not_and]
                  exact fun _ _ he2 => hkk he2
                rw [List.filter_cons, if_neg (by simp [hcm])]
          · have hs2 : (p0.withSubAreas (p0.subAreas.set (lookupD co cCode)
                (c0.withSubAreas (c0.subAreas.set (lookupD ao aCode)
                  (appendChild (mkChildNode s) a0))))).subAreas[j]? = some c := by
              rw [subAreas_withSubAreas, List.getElem?_set_ne hjj]
              exact hc
            obtain ⟨d, hd, hdlen, hdw, hdk⟩ := hqj j c hs2
            refine ⟨d, hd, hdlen, hdw, fun k e he => ?_⟩
            have := hdk k e he
            rw [this]
            have hcm : streetMatch po co ao (lookupD po pCode) j k s = false := by
              simp only [streetMatch, hg, hgc, hga, Option.map_some',
                decide_eq_false_iff_not, Option.some.injEq, not_and]
              exact fun _ he2 => absurd he2 hjj
            rw [List.filter_cons, if_neg (by simp [hcm])]
      · have hs1 : (ts.set (lookupD po pCode) (p0.withSubAreas
            (p0.subAreas.set (lookupD co cCode) (c0.withSubAreas
              (c0.subAreas.set (lookupD ao aCode)
                (appendChild (mkChildNode s) a0))))))[i]? = some p := by
          rw [List.getElem?_set_ne hii]
          exact hp
        obtain ⟨q, hq, hqlen, hqw, hqj⟩ := g2 i p hs1
        refine ⟨q, hq, hqlen, hqw, fun j c hc => ?_⟩
        obtain ⟨d, hd, hdlen, hdw, hdk⟩ := hqj j c hc
        refine ⟨d, hd, hdlen, hdw, fun k e he => ?_⟩
        have := hdk k e he
        rw [this]
        have hcm : streetMatch po co ao i j k s = false := by
          simp only [streetMatch, hg, hgc, hga, Option.map_some',
            decide_eq_false_iff_not, Option.some.injEq, not_and]
          exact fun he2 => absurd he2 hii
        rw [List.filter_cons, if_neg (by simp [hcm])]

/- Fold success under in-range resolution. -/

theorem cityFold_some (po : List (GoStr × Nat)) : ∀ (cs : List flatNode)
    (ts : List Area) (co : List (GoStr × Nat)),
    (∀ c ∈ cs, ∃ pCode, getProvince c.code = some pCode ∧ lookupD po pCode < ts.length) →
    ∃ st2, foldAdd (addCity po) (ts, co) cs = some st2
  | [], ts, co => fun _ => ⟨(ts, co), rfl⟩
  | c :: rest, ts, co => by
    intro hv
    obtain ⟨pCode, hg, hlt⟩ := hv c (List.mem_cons_self c rest)
    have hp : ts[lookupD po pCode]? = some ts[lookupD po pCode] :=
      List.getElem?_eq_getElem hlt
    have hstep : addCity po (ts, co) c =
        some (ts.set (lookupD po pCode)
                (appendChild (mkChildNode c) ts[lookupD po pCode]),
              (c.code, ts[lookupD po pCode].subAreas.length) :: co) := by
      simp [addCity, hg, hp]
    obtain ⟨st2, h2⟩ := cityFold_some po rest
      (ts.set (lookupD po pCode) (appendChild (mkChildNode c) ts[lookupD po pCode]))
      ((c.code, ts[lookupD po pCode].subAreas.length) :: co)
      (by
        intro c2 hc2
        obtain ⟨pc2, hg2, hlt2⟩ := hv c2 (List.mem_cons_of_mem c hc2)
        exact ⟨pc2, hg2, by simpa [List.length_set] using hlt2⟩)
    refine ⟨st2, ?_⟩
    simp only [foldAdd, hstep]
    exact h2

theorem areaFold_some (po co : List (GoStr × Nat)) : ∀ (rs : List flatNode)
    (ts : List Area) (ao : List (GoStr × Nat)),
    (∀ a ∈ rs, ∃ pCode cCode p0, getProvince a.code = some pCode ∧
      getCity a.code = some cCode ∧ ts[lookupD po pCode]? = some p0 ∧
      lookupD co cCode < p0.subAreas.length) →
    ∃ st2, foldAdd (addArea po co) (ts, ao) rs = some st2
  | [], ts, ao => fun _ => ⟨(ts, ao), rfl⟩
  | a :: rest, ts, ao => by
    intro hv
    obtain ⟨pCode, cCode, p0, hg, hgc, hp, hjlt⟩ := hv a (List.mem_cons_self a rest)
    have hc0 : p0.subAreas[lookupD co cCode]? = some p0.subAreas[lookupD co cCode] :=
      List.getElem?_eq_getElem hjlt
    have hplt : lookupD po pCode < ts.length := (List.getElem?_eq_some.mp hp).1
    have hstep : addArea po co (ts, ao) a =
        some (ts.set (lookupD po pCode)
                (p0.withSubAreas (p0.subAreas.set (lookupD co cCode)
                  (appendChild (mkChildNode a) p0.subAreas[lookupD co cCode]))),
              (a.code, p0.subAreas[lookupD co cCode].subAreas.length) :: ao) := by
      simp [addArea, hg, hgc, nodeAt, subtreeAt, updPath, updTree, hp, hc0]
    obtain ⟨st2, h2⟩ := areaFold_some po co rest
      (ts.set (lookupD po pCode)
        (p0.withSubAreas (p0.subAreas.set (lookupD co cCode)
          (appendChild (mkChildNode a) p0.subAreas[lookupD co cCode]))))
      ((a.code, p0.subAreas[lookupD co cCode].subAreas.length) :: ao)
      (by
        intro a2 ha2
        obtain ⟨pc2, cc2, p02, hg2, hgc2, hp2, hlt2⟩ := hv a2 (List.mem_cons_of_mem a ha2)
        by_cases hii : lookupD po pCode = lookupD po pc2
        · have hpe : p02 = p0 := by
            rw [← hii] at hp2
            rw [hp] at hp2
            exact (Option.some_inj.mp hp2).symm
          refine ⟨pc2, cc2, p0.withSubAreas (p0.subAreas.set (lookupD co cCode)
            (appendChild (mkChildNode a) p0.subAreas[lookupD co cCode])), hg2, hgc2, ?_, ?_⟩
          · rw [← hii]
            exact List.getElem?_set_eq hplt
          · simp only [subAreas_withSubAreas, List.length_set]
            rw [hpe] at hlt2
            exact hlt2
        · refine ⟨pc2, cc2, p02, hg2, hgc2, ?_, hlt2⟩
          rw [List.getElem?_set_ne hii]
          exact hp2)
    refine ⟨st2, ?_⟩
    simp only [foldAdd, hstep]
    exact h2

theorem streetFold_some (po co ao : List (GoStr × Nat)) : ∀ (rs : List flatNode)
    (ts : List Area),
    (∀ s ∈ rs, ∃ pCode cCode aCode p0 c0, getProvince s.code = some pCode ∧
      getCity s.code = some cCode ∧ getArea s.code = some aCode ∧
      ts[lookupD po pCode]? = some p0 ∧
      p0.subAreas[lookupD co cCode]? = some c0 ∧
      lookupD ao aCode < c0.subAreas.length) →
    ∃ ts2, foldAdd (addStreet po co ao) ts rs = some ts2
  | [], ts => fun _ => ⟨ts, rfl⟩
  | s :: rest, ts => by
    intro hv
    obtain ⟨pCode, cCode, aCode, p0, c0, hg, hgc, hga, hp, hc0, hklt⟩ :=
      hv s (List.mem_cons_self s rest)
    have ha0 : c0.subAreas[lookupD ao aCode]? = some c0.subAreas[lookupD ao aCode] :=
      List.getElem?_eq_getElem hklt
    have hplt : lookupD po pCode < ts.length := (List.getElem?_eq_some.mp hp).1
    have hjlt : lookupD co cCode < p0.subAreas.length := (List.getElem?_eq_some.mp hc0).1
    have hstep : addStreet po co ao ts s =
        some (ts.set (lookupD po pCode)
          (p0.withSubAreas (p0.subAreas.set (lookupD co cCode)
            (c0.withSubAreas (c0.subAreas.set (lookupD ao aCode)
              (appendChild (mkChildNode s) c0.subAreas[lookupD ao aCode])))))) := by
      simp [addStreet, updPath, updTree, hg, hgc, hga, hp, hc0, ha0]
    obtain ⟨ts2, h2⟩ := streetFold_some po co ao rest
      (ts.set (lookupD po pCode)
        (p0.withSubAreas (p0.subAreas.set (lookupD co cCode)
          (c0.withSubAreas (c0.subAreas.set (lookupD ao aCode)
            (appendChild (mkChildNode s) c0.subAreas[lookupD ao aCode]))))))
      (by
        intro s2 hs2
        obtain ⟨pc2, cc2, ac2, p02, c02, hg2, hgc2, hga2, hp2, hc2, hlt2⟩ :=
          hv s2 (List.mem_cons_of_mem s hs2)
        by_cases hii : lookupD po pCode = lookupD po pc2
        · have hpe : p02 = p0 := by
            rw [← hii] at hp2
            rw [hp] at hp2
            exact (Option.some_inj.mp hp2).symm
          by_cases hjj : lookupD co cCode = lookupD co cc2
          · have hce : c02 = c0 := by
              rw [hpe, ← hjj] at hc2
              rw [hc0] at hc2
              exact (Option.some_inj.mp hc2).symm
            refine ⟨pc2, cc2, ac2, p0.withSubAreas (p0.subAreas.set (lookupD co cCode)
              (c0.withSubAreas (c0.subAreas.set (lookupD ao aCode)
                (appendChild (mkChildNode s) c0.subAreas[lookupD ao aCode])))),
              c0.withSubAreas (c0.subAreas.set (lookupD ao aCode)
              (appendChild (mkChildNode s) c0.subAreas[lookupD ao aCode])),
              hg2, hgc2, hga2, ?_, ?_, ?_⟩
            · rw [← hii]
              exact List.getElem?_set_eq hplt
            · simp only [subAreas_withSubAreas]
              rw [← hjj]
              exact List.getElem?_set_eq hjlt
            · simp only [subAreas_withSubAreas, List.length_set]
              rw [hce] at hlt2
              exact hlt2
          · refine ⟨pc2, cc2, ac2, p0.withSubAreas (p0.subAreas.set (lookupD co cCode)
              (c0.withSubAreas (c0.subAreas.set (lookupD ao aCode)
                (appendChild (mkChildNode s) c0.subAreas[lookupD ao aCode])))),
              c02, hg2, hgc2, hga2, ?_, ?_, hlt2⟩
            · rw [← hii]
              exact List.getElem?_set_eq hplt
            · simp only [subAreas_withSubAreas]
              rw [List.getElem?_set_ne hjj]
              rw [hpe] at hc2
              exact hc2
        · refine ⟨pc2, cc2, ac2, p02, c02, hg2, hgc2, hga2, ?_, hc2, hlt2⟩
          rw [List.getElem?_set_ne hii]
          exact hp2)
    refine ⟨ts2, ?_⟩
    simp only [foldAdd, hstep]
    exact h2

/- Position utilities for the order-preservation proof. -/

theorem nodup_getElem?_inj {α : Type} {L : List α} (hL : L.Nodup) {i j : Nat} {x : α}
    (h1 : L[i]? = some x) (h2 : L[j]? = some x) : i = j := by
  obtain ⟨hi, he1⟩ := List.getElem?_eq_some.mp h1
  obtain ⟨hj, he2⟩ := List.getElem?_eq_some.mp h2
  have hg : L.get ⟨i, hi⟩ = L.get ⟨j, hj⟩ := by
    rw [List.get_eq_getElem, List.get_eq_getElem]
    rw [he1, he2]
  have := (hL.get_inj_iff).mp hg
  exact Fin.val_eq_of_eq this

theorem filter_split_getElem {α : Type} (p : α → Bool) (l : List α) (x : α) (r : List α)
    (hx : p x = true) : ((l ++ x :: r).filter p)[(l.filter p).length]? = some x := by
  rw [List.filter_append, List.filter_cons, if_pos hx,
    List.getElem?_append_right (le_refl _)]
  simp

theorem getProvince_some_of_getCity (code cc : GoStr) (h : getCity code = some cc) :
    ∃ pa, getProvince code = some pa := by
  simp only [getCity] at h
  by_cases h4 : 4 ≤ code.length
  · exact ⟨_, by rw [getProvince, if_pos (by omega)]⟩
  · rw [if_neg h4] at h
    exact absurd h (by simp)

theorem getProvince_some_of_getArea (code ac : GoStr) (h : getArea code = some ac) :
    ∃ pa, getProvince code = some pa := by
  simp only [getArea] at h
  by_cases h6 : 6 ≤ code.length
  · exact ⟨_, by rw [getProvince, if_pos (by omega)]⟩
  · rw [if_neg h6] at h
    exact absurd h (by simp)

theorem getCity_some_of_getArea (code ac : GoStr) (h : getArea code = some ac) :
    ∃ cc, getCity code = some cc := by
  simp only [getArea] at h
  by_cases h6 : 6 ≤ code.length
  · exact ⟨_, by rw [getCity, if_pos (by omega)]⟩
  · rw [if_neg h6] at h
    exact absurd h (by simp)

theorem resolvesP_spec (ps : List flatNode) (c : flatNode) (h : resolvesP ps c = true) :
    ∃ pc, getProvince c.code = some pc ∧ ∃ p ∈ ps, p.code = pc := by
  cases hg : getProvince c.code with
  | none => rw [resolvesP, hg] at h; exact absurd h (by simp)
  | some pc =>
    rw [resolvesP, hg] at h
    obtain ⟨p, hp, hpc⟩ := List.any_eq_true.mp h
    exact ⟨pc, rfl, p, hp, by simpa using hpc⟩

theorem resolvesC_spec (cs : List flatNode) (a : flatNode) (h : resolvesC cs a = true) :
    ∃ cc, getCity a.code = some cc ∧ ∃ c ∈ cs, c.code = cc := by
  cases hg : getCity a.code with
  | none => rw [resolvesC, hg] at h; exact absurd h (by simp)
  | some cc =>
    rw [resolvesC, hg] at h
    obtain ⟨c, hc, hcc⟩ := List.any_eq_true.mp h
    exact ⟨cc, rfl, c, hc, by simpa using hcc⟩

theorem resolvesA_spec (as2 : List flatNode) (s : flatNode) (h : resolvesA as2 s = true) :
    ∃ ac, getArea s.code = some ac ∧ ∃ a ∈ as2, a.code = ac := by
  cases hg : getArea s.code with
  | none => rw [resolvesA, hg] at h; exact absurd h (by simp)
  | some ac =>
    rw [resolvesA, hg] at h
    obtain ⟨a, ha, hac⟩ := List.any_eq_true.mp h
    exact ⟨ac, rfl, a, ha, by simpa using hac⟩

theorem orderMap_lookup_mem (ps : List flatNode) (hpn : (ps.map flatNode.code).Nodup)
    (pc : GoStr) (h : ∃ p ∈ ps, p.code = pc) :
    ∃ (hi : lookupD (orderMap ps) pc < ps.length),
      (ps.get ⟨lookupD (orderMap ps) pc, hi⟩).code = pc := by
  obtain ⟨p, hp, hpc⟩ := h
  obtain ⟨⟨i0, hi0⟩, hget⟩ := List.mem_iff_get.mp hp
  have hl : lookupD (orderMap ps) pc = i0 := by
    rw [← hpc, ← hget]
    exact lookupD_orderMap ps hpn i0 hi0
  rw [hl]
  exact ⟨hi0, by rw [hget, hpc]⟩

theorem city_position (ps cs : List flatNode)
    (hpn : (ps.map flatNode.code).Nodup) (hcn : (cs.map flatNode.code).Nodup)
    (st1 : List Area × List (GoStr × Nat))
    (hf1 : foldAdd (addCity (orderMap ps)) (ps.map mkRoot, []) cs = some st1) :
    ∀ c2 ∈ cs, ∀ pc, getProvince c2.code = some pc →
    cityMatch (orderMap ps) (lookupD (orderMap ps) pc) c2 = true ∧
    (cs.filter (cityMatch (orderMap ps) (lookupD (orderMap ps) pc)))[lookupD st1.2
      c2.code]? = some c2 := by
  intro c2 hc2 pc hg
  have hcm : cityMatch (orderMap ps) (lookupD (orderMap ps) pc) c2 = true := by
    simp [cityMatch, hg]
  refine ⟨hcm, ?_⟩
  obtain ⟨l, r, hsplit⟩ := List.append_of_mem hc2
  subst hsplit
  obtain ⟨p2, hp2, heq⟩ := cityFold_lookup (orderMap ps) l c2 r (ps.map mkRoot) [] st1
    hcn (by simp) hf1 pc hg
  rw [List.getElem?_map] at hp2
  cases hps : ps[lookupD (orderMap ps) pc]? with
  | none => rw [hps] at hp2; exact absurd hp2 (by simp)
  | some pr =>
    rw [hps] at hp2
    simp only [Option.map_some', Option.some.injEq] at hp2
    have hp2sub : p2.subAreas = [] := by
      rw [← hp2]
      rfl
    rw [heq, hp2sub]
    simp only [List.length_nil, Nat.zero_add]
    exact filter_split_getElem _ l c2 r hcm

theorem area_position (po co : List (GoStr × Nat)) (as2 : List flatNode)
    (han : (as2.map flatNode.code).Nodup)
    (ts1 : List Area) (st2 : List Area × List (GoStr × Nat))
    (hf2 : foldAdd (addArea po co) (ts1, []) as2 = some st2)
    (hlvl2 : ∀ (i : Nat) (q : Area), ts1[i]? = some q →
      ∀ (j : Nat) (x : Area), q.subAreas[j]? = some x → x.subAreas = []) :
    ∀ a2 ∈ as2, ∀ pCode cCode, getProvince a2.code = some pCode →
    getCity a2.code = some cCode →
    areaMatch po co (lookupD po pCode) (lookupD co cCode) a2 = true ∧
    (as2.filter (areaMatch po co (lookupD po pCode) (lookupD co cCode)))[lookupD st2.2
      a2.code]? = some a2 := by
  intro a2 ha2 pCode cCode hg hgc
  have hcm : areaMatch po co (lookupD po pCode) (lookupD co cCode) a2 = true := by
    simp [areaMatch, hg, hgc]
  refine ⟨hcm, ?_⟩
  obtain ⟨l, r, hsplit⟩ := List.append_of_mem ha2
  subst hsplit
  obtain ⟨p0, c0, hp0, hc0, heq⟩ := areaFold_lookup po co l a2 r ts1 [] st2
    han (by simp) hf2 pCode cCode hg hgc
  have hc0sub : c0.subAreas = [] := hlvl2 _ p0 hp0 _ c0 hc0
  rw [heq, hc0sub]
  simp only [List.length_nil, Nat.zero_add]
  exact filter_split_getElem _ l a2 r hcm

/- Translation between position-based and code-based filters. -/

theorem cityFilter_congr (ps cs : List flatNode)
    (hpn : (ps.map flatNode.code).Nodup)
    (h4 : ∀ c ∈ cs, resolvesP ps c = true)
    (i : Nat) (hi : i < ps.length) :
    cs.filter (cityMatch (orderMap ps) i) =
    cs.filter (fun c => decide (getProvince c.code = some (ps.get ⟨i, hi⟩).code)) := by
  refine List.filter_congr ?_
  intro c hc
  obtain ⟨pc, hg, hmem⟩ := resolvesP_spec ps c (h4 c hc)
  rw [cityMatch]
  refine decide_eq_decide.mpr ?_
  rw [hg]
  simp only [Option.map_some', Option.some.injEq]
  obtain ⟨hi2, hcode⟩ := orderMap_lookup_mem ps hpn pc hmem
  constructor
  · intro he
    have hfe : (⟨lookupD (orderMap ps) pc, hi2⟩ : Fin ps.length) = ⟨i, hi⟩ := Fin.ext he
    rw [hfe] at hcode
    exact hcode.symm
  · intro he
    rw [he]
    exact lookupD_orderMap ps hpn i hi

theorem areaFilter_congr (ps cs as2 : List flatNode) (co : List (GoStr × Nat))
    (ts1 : List Area)
    (hpn : (ps.map flatNode.code).Nodup)
    (hcn : (cs.map flatNode.code).Nodup)
    (h5 : ∀ a ∈ as2, resolvesC cs a = true)
    (hf1 : foldAdd (addCity (orderMap ps)) (ps.map mkRoot, []) cs = some (ts1, co))
    (i j : Nat) (cj : flatNode)
    (hcj : (cs.filter (cityMatch (orderMap ps) i))[j]? = some cj) :
    as2.filter (areaMatch (orderMap ps) co i j) =
    as2.filter (fun a => decide (getCity a.code = some cj.code)) := by
  have hcjmem : cj ∈ cs.filter (cityMatch (orderMap ps) i) := by
    obtain ⟨hlt, he⟩ := List.getElem?_eq_some.mp hcj
    exact he ▸ List.getElem_mem hlt
  have hcjcs : cj ∈ cs := (List.mem_filter.mp hcjmem).1
  have hcjmatch : cityMatch (orderMap ps) i cj = true := (List.mem_filter.mp hcjmem).2
  obtain ⟨pcj, hgcj⟩ : ∃ pcj, getProvince cj.code = some pcj := by
    rw [cityMatch] at hcjmatch
    cases hg : getProvince cj.code with
    | none => rw [hg] at hcjmatch; simp at hcjmatch
    | some x => exact ⟨x, rfl⟩
  have hicj : lookupD (orderMap ps) pcj = i := by
    rw [cityMatch, hgcj] at hcjmatch
    simpa using hcjmatch
  have hposj := (city_position ps cs hpn hcn (ts1, co) hf1 cj hcjcs pcj hgcj).2
  rw [hicj] at hposj
  have hnodcs : (cs.filter (cityMatch (orderMap ps) i)).Nodup :=
    (List.Nodup.of_map _ hcn).filter _
  have hjcj : lookupD co cj.code = j := nodup_getElem?_inj hnodcs hposj hcj
  refine List.filter_congr ?_
  intro a ha
  rw [areaMatch]
  refine decide_eq_decide.mpr ?_
  constructor
  · rintro ⟨hA, hB⟩
    obtain ⟨cca, hgca, c2, hc2mem, hc2code⟩ := resolvesC_spec cs a (h5 a ha)
    rw [hgca] at hB
    simp only [Option.map_some', Option.some.injEq] at hB
    obtain ⟨pa, hga⟩ := getProvince_some_of_getCity a.code cca hgca
    rw [hga] at hA
    simp only [Option.map_some', Option.some.injEq] at hA
    have hgc2 : getProvince c2.code = some pa := by
      rw [hc2code, getProvince_getCity a.code cca hgca]
      exact hga
    have hpos2 := (city_position ps cs hpn hcn (ts1, co) hf1 c2 hc2mem pa hgc2).2
    rw [hA, hc2code, hB] at hpos2
    have hc2cj : c2 = cj := Option.some_inj.mp (hpos2.symm.trans hcj)
    rw [hgca, ← hc2cj, hc2code]
  · intro hB2
    refine ⟨?_, ?_⟩
    · have hgpa : getProvince a.code = some pcj := by
        rw [← getProvince_getCity a.code cj.code hB2]
        exact hgcj
      rw [hgpa]
      simp only [Option.map_some', Option.some.injEq]
      exact hicj
    · rw [hB2]
      simp only [Option.map_some', Option.some.injEq]
      exact hjcj

theorem streetFilter_congr (ps cs as2 ss : List flatNode) (co ao : List (GoStr × Nat))
    (ts1 : List Area) (ts2 : List Area)
    (han : (as2.map flatNode.code).Nodup)
    (h6 : ∀ s ∈ ss, resolvesA as2 s = true)
    (hf2 : foldAdd (addArea (orderMap ps) co) (ts1, []) as2 = some (ts2, ao))
    (hlvl2 : ∀ (i : Nat) (q : Area), ts1[i]? = some q →
      ∀ (j : Nat) (x : Area), q.subAreas[j]? = some x → x.subAreas = [])
    (i j k : Nat) (ak : flatNode)
    (hak : (as2.filter (areaMatch (orderMap ps) co i j))[k]? = some ak) :
    ss.filter (streetMatch (orderMap ps) co ao i j k) =
    ss.filter (fun s => decide (getArea s.code = some ak.code)) := by
  have hakmem : ak ∈ as2.filter (areaMatch (orderMap ps) co i j) := by
    obtain ⟨hlt, he⟩ := List.getElem?_eq_some.mp hak
    exact he ▸ List.getElem_mem hlt
  have hakas : ak ∈ as2 := (List.mem_filter.mp hakmem).1
  have hakmatch : areaMatch (orderMap ps) co i j ak = true := (List.mem_filter.mp hakmem).2
  rw [areaMatch, decide_eq_true_eq] at hakmatch
  obtain ⟨hakP, hakC⟩ := hakmatch
  obtain ⟨pak, hgpak⟩ : ∃ pak, getProvince ak.code = some pak := by
    cases hg : getProvince ak.code with
    | none => rw [hg] at hakP; simp at hakP
    | some x => exact ⟨x, rfl⟩
  obtain ⟨cak, hgcak⟩ : ∃ cak, getCity ak.code = some cak := by
    cases hg : getCity ak.code with
    | none => rw [hg] at hakC; simp at hakC
    | some x => exact ⟨x, rfl⟩
  rw [hgpak] at hakP
  simp only [Option.map_some', Option.some.injEq] at hakP
  rw [hgcak] at hakC
  simp only [Option.map_some', Option.some.injEq] at hakC
  have hposk := (area_position (orderMap ps) co as2 han ts1 (ts2, ao) hf2 hlvl2
    ak hakas pak cak hgpak hgcak).2
  rw [hakP, hakC] at hposk
  have hnodas : (as2.filter (areaMatch (orderMap ps) co i j)).Nodup :=
    (List.Nodup.of_map _ han).filter _
  have hkak : lookupD ao ak.code = k := nodup_getElem?_inj hnodas hposk hak
  refine List.filter_congr ?_
  intro s hs
  rw [streetMatch]
  refine decide_eq_decide.mpr ?_
  constructor
  · rintro ⟨hA, hB, hC⟩
    obtain ⟨ac, hga, a2, ha2mem, ha2code⟩ := resolvesA_spec as2 s (h6 s hs)
    rw [hga] at hC
    simp only [Option.map_some', Option.some.injEq] at hC
    obtain ⟨pas, hgs⟩ := getProvince_some_of_getArea s.code ac hga
    obtain ⟨cas, hgcs⟩ := getCity_some_of_getArea s.code ac hga
    rw [hgs] at hA
    simp only [Option.map_some', Option.some.injEq] at hA
    rw [hgcs] at hB
    simp only [Option.map_some', Option.some.injEq] at hB
    have hgp2 : getProvince a2.code = some pas := by
      rw [ha2code, getProvince_getArea s.code ac hga]
      exact hgs
    have hgc2 : getCity a2.code = some cas := by
      rw [ha2code, getCity_getArea s.code ac hga]
      exact hgcs
    have hpos2 := (area_position (orderMap ps) co as2 han ts1 (ts2, ao) hf2 hlvl2
      a2 ha2mem pas cas hgp2 hgc2).2
    rw [hA, hB, ha2code, hC] at hpos2
    have ha2ak : a2 = ak := Option.some_inj.mp (hpos2.symm.trans hak)
    rw [hga, ← ha2ak, ha2code]
  · intro hB2
    refine ⟨?_, ?_, ?_⟩
    · have hgps : getProvince s.code = some pak := by
        rw [← getProvince_getArea s.code ak.code hB2]
        exact hgpak
      rw [hgps]
      simp only [Option.map_some', Option.some.injEq]
      exact hakP
    · have hgcs : getCity s.code = some cak := by
        rw [← getCity_getArea s.code ak.code hB2]
        exact hgcak
      rw [hgcs]
      simp only [Option.map_some', Option.some.injEq]
      exact hakC
    · rw [hB2]
      simp only [Option.map_some', Option.some.injEq]
      exact hkak

/-- buildTrees meets the order-preservation contract: on inputs whose codes
    are unique per level and whose records all resolve to existing parents,
    it produces exactly the expected forest. -/
theorem buildTrees_eq_expected (ps cs as ss : List flatNode)
    (hpn : (ps.map flatNode.code).Nodup)
    (hcn : (cs.map flatNode.code).Nodup)
    (han : (as.map flatNode.code).Nodup)
    (h4 : ∀ c ∈ cs, resolvesP ps c = true)
    (h5 : ∀ a ∈ as, resolvesC cs a = true)
    (h6 : ∀ s ∈ ss, resolvesA as s = true) :
    buildTrees ps cs as ss = some (expectedForest ps cs as ss) := by
  have hcity : ∀ c ∈ cs, ∃ pc, getProvince c.code = some pc ∧
      ∃ (hi : lookupD (orderMap ps) pc < ps.length),
        (ps.get ⟨lookupD (orderMap ps) pc, hi⟩).code = pc := by
    intro c hc
    obtain ⟨pc, hg, hmem⟩ := resolvesP_spec ps c (h4 c hc)
    obtain ⟨hi, hcode⟩ := orderMap_lookup_mem ps hpn pc hmem
    exact ⟨pc, hg, hi, hcode⟩
  obtain ⟨st1, hf1⟩ := cityFold_some (orderMap ps) cs (ps.map mkRoot) []
    (by
      intro c hc
      obtain ⟨pc, hg, hi, _⟩ := hcity c hc
      exact ⟨pc, hg, by simpa using hi⟩)
  obtain ⟨ts1, co⟩ := st1
  obtain ⟨l1, g1⟩ := cityFold_char (orderMap ps) cs (ps.map mkRoot, []) (ts1, co) hf1
  simp only [List.length_map] at l1
  have hroot1 : ∀ (i : Nat), i < ps.length → ∀ (pr : flatNode), ps[i]? = some pr →
      ts1[i]? = some (Area.mk pr.code pr.name ['0'] 0 0
        ((cs.filter (cityMatch (orderMap ps) i)).map mkChildNode)) := by
    intro i hi pr hpr
    have hm : (ps.map mkRoot)[i]? = some (mkRoot pr) := by
      rw [List.getElem?_map, hpr]
      rfl
    have hg := g1 i (mkRoot pr) hm
    rwa [appendList_mkRoot] at hg
  have hlvl2 : ∀ (i : Nat) (q : Area), ts1[i]? = some q →
      ∀ (j : Nat) (x : Area), q.subAreas[j]? = some x → x.subAreas = [] := by
    intro i q hq j x hx
    have hilt : i < ts1.length := (List.getElem?_eq_some.mp hq).1
    have hips : i < ps.length := by omega
    have hpr : ps[i]? = some ps[i] := List.getElem?_eq_getElem hips
    have hrd := hroot1 i hips _ hpr
    rw [hq] at hrd
    obtain rfl := Option.some_inj.mp hrd
    simp only [Area.subAreas] at hx
    rw [List.getElem?_map] at hx
    cases hcf : (cs.filter (cityMatch (orderMap ps) i))[j]? with
    | none => rw [hcf] at hx; exact absurd hx (by simp)
    | some cr =>
      rw [hcf] at hx
      simp only [Option.map_some', Option.some.injEq] at hx
      rw [← hx]
      rfl
  have hcpos : ∀ c ∈ cs, ∀ pc, getProvince c.code = some pc →
      (cs.filter (cityMatch (orderMap ps) (lookupD (orderMap ps) pc)))[lookupD co
        c.code]? = some c :=
    fun c hc pc hg => (city_position ps cs hpn hcn (ts1, co) hf1 c hc pc hg).2
  have hareaFacts : ∀ a ∈ as, ∀ pCode cCode, getProvince a.code = some pCode →
      getCity a.code = some cCode →
      lookupD (orderMap ps) pCode < ps.length ∧
      lookupD co cCode <
        (cs.filter (cityMatch (orderMap ps) (lookupD (orderMap ps) pCode))).length := by
    intro a ha pCode cCode hg hgc
    obtain ⟨cc, hgc2, c2, hc2mem, hc2code⟩ := resolvesC_spec cs a (h5 a ha)
    have hcc : cc = cCode := by
      rw [hgc] at hgc2
      exact (Option.some_inj.mp hgc2).symm
    rw [hcc] at hc2code
    have hgp2 : getProvince c2.code = some pCode := by
      rw [hc2code, getProvince_getCity a.code cCode hgc]
      exact hg
    obtain ⟨pc2, hg2, hmem2⟩ := resolvesP_spec ps c2 (h4 c2 hc2mem)
    have hpc : pc2 = pCode := by
      rw [hgp2] at hg2
      exact (Option.some_inj.mp hg2).symm
    rw [hpc] at hmem2
    obtain ⟨hi, _⟩ := orderMap_lookup_mem ps hpn pCode hmem2
    refine ⟨hi, ?_⟩
    have hpos := hcpos c2 hc2mem pCode hgp2
    have hlt := (List.getElem?_eq_some.mp hpos).1
    rwa [hc2code] at hlt
  obtain ⟨st2, hf2⟩ := areaFold_some (orderMap ps) co as ts1 []
    (by
      intro a ha
      obtain ⟨cc, hgc, _⟩ := resolvesC_spec cs a (h5 a ha)
      obtain ⟨pa, hg⟩ := getProvince_some_of_getCity a.code cc hgc
      obtain ⟨hi, hj⟩ := hareaFacts a ha pa cc hg hgc
      have hpr : ps[lookupD (orderMap ps) pa]? = some ps[lookupD (orderMap ps) pa] :=
        List.getElem?_eq_getElem hi
      have hread := hroot1 _ hi _ hpr
      refine ⟨pa, cc, _, hg, hgc, hread, ?_⟩
      simp only [Area.subAreas, List.length_map]
      exact hj)
  obtain ⟨ts2, ao⟩ := st2
  obtain ⟨l2, g2⟩ := areaFold_char (orderMap ps) co as (ts1, []) (ts2, ao) hf2
  have l2e : ts2.length = ts1.length := l2
  have hapos : ∀ a ∈ as, ∀ pCode cCode, getProvince a.code = some pCode →
      getCity a.code = some cCode →
      (as.filter (areaMatch (orderMap ps) co (lookupD (orderMap ps) pCode)
        (lookupD co cCode)))[lookupD ao a.code]? = some a :=
    fun a ha pCode cCode hg hgc =>
      (area_position (orderMap ps) co as han ts1 (ts2, ao) hf2 hlvl2
        a ha pCode cCode hg hgc).2
  obtain ⟨ts3, hf3⟩ := streetFold_some (orderMap ps) co ao ss ts2
    (by
      intro s hs
      obtain ⟨ac, hga, a2, ha2mem, ha2code⟩ := resolvesA_spec as s (h6 s hs)
      obtain ⟨ccs, hgcs⟩ := getCity_some_of_getArea s.code ac hga
      obtain ⟨pcs, hgs⟩ := getProvince_some_of_getArea s.code ac hga
      have hgc2 : getCity a2.code = some ccs := by
        rw [ha2code, getCity_getArea s.code ac hga]
        exact hgcs
      have hgp2 : getProvince a2.code = some pcs := by
        rw [ha2code, getProvince_getArea s.code ac hga]
        exact hgs
      obtain ⟨hi, hj⟩ := hareaFacts a2 ha2mem pcs ccs hgp2 hgc2
      have hpr : ps[lookupD (orderMap ps) pcs]? = some ps[lookupD (orderMap ps) pcs] :=
        List.getElem?_eq_getElem hi
      have hread1 := hroot1 _ hi _ hpr
      obtain ⟨q, hq, hqlen, hqw, hqj⟩ := g2 (lookupD (orderMap ps) pcs) _ hread1
      have hcread : (Area.mk (ps[lookupD (orderMap ps) pcs]).code
          (ps[lookupD (orderMap ps) pcs]).name ['0'] 0 0
          ((cs.filter (cityMatch (orderMap ps) (lookupD (orderMap ps) pcs))).map
            mkChildNode)).subAreas[lookupD co ccs]? = some (mkChildNode
              ((cs.filter (cityMatch (orderMap ps) (lookupD (orderMap ps) pcs))).get
                ⟨lookupD co ccs, hj⟩)) := by
        simp only [Area.subAreas]
        rw [List.getElem?_map, List.getElem?_eq_getElem hj]
        rfl
      have hq2 := hqj (lookupD co ccs) _ hcread
      have hpos2 := hapos a2 ha2mem pcs ccs hgp2 hgc2
      have hklt := (List.getElem?_eq_some.mp hpos2).1
      rw [ha2code] at hklt
      refine ⟨pcs, ccs, ac, q, _, hgs, hgcs, hga, hq, hq2, ?_⟩
      rw [appendList_mkChildNode]
      simp only [Area.subAreas, List.length_map]
      exact hklt)
  have hbuild : buildTrees ps cs as ss = some ts3 := by
    simp only [buildTrees, hf1, hf2]
    exact hf3
  rw [hbuild]
  obtain ⟨l3, g3⟩ := streetFold_char (orderMap ps) co ao ss ts2 ts3 hf3
  refine congrArg some (List.ext_getElem? ?_)
  intro i
  by_cases hips : i < ps.length
  · have hpr : ps[i]? = some ps[i] := List.getElem?_eq_getElem hips
    have hread1 := hroot1 i hips _ hpr
    obtain ⟨q2, hq2, hq2len, hq2w, hq2j⟩ := g2 i _ hread1
    obtain ⟨q3, hq3, hq3len, hq3w, hq3j⟩ := g3 i _ hq2
    rw [hq3]
    have hexp : (expectedForest ps cs as ss)[i]? = some (expRootNode cs as ss ps[i]) := by
      simp only [expectedForest]
      rw [List.getElem?_map, hpr]
      rfl
    rw [hexp]
    refine congrArg some ?_
    have hq3e : q3 = Area.mk (ps[i]).code (ps[i]).name ['0'] 0 0 q3.subAreas := by
      conv_lhs => rw [hq3w, hq2w, withSubAreas_withSubAreas]
      rfl
    rw [hq3e]
    simp only [expRootNode]
    congr 1
    have hT1 := cityFilter_congr ps cs hpn h4 i hips
    rw [List.get_eq_getElem] at hT1
    rw [← hT1]
    have hq3clen : q3.subAreas.length =
        (cs.filter (cityMatch (orderMap ps) i)).length := by
      rw [hq3len, hq2len]
      simp only [Area.subAreas, List.length_map]
    refine List.ext_getElem? ?_
    intro j
    by_cases hjlt : j < (cs.filter (cityMatch (orderMap ps) i)).length
    · obtain ⟨cj, hcjv⟩ : ∃ cj,
          (cs.filter (cityMatch (orderMap ps) i))[j]? = some cj :=
        ⟨_, List.getElem?_eq_getElem hjlt⟩
      have hrd : (Area.mk (ps[i]).code (ps[i]).name ['0'] 0 0
          ((cs.filter (cityMatch (orderMap ps) i)).map
            mkChildNode)).subAreas[j]? = some (mkChildNode cj) := by
        simp only [Area.subAreas]
        rw [List.getElem?_map, hcjv]
        rfl
      have hq2r := hq2j j _ hrd
      rw [appendList_mkChildNode] at hq2r
      obtain ⟨d, hd, hdlen, hdw, hdk⟩ := hq3j j _ hq2r
      rw [hd, List.getElem?_map, hcjv]
      simp only [Option.map_some']
      refine congrArg some ?_
      have hde : d = Area.mk cj.code cj.name cj.parent_code 0 0 d.subAreas := by
        conv_lhs => rw [hdw]
        rfl
      rw [hde]
      simp only [expCityNode]
      congr 1
      have hT2 := areaFilter_congr ps cs as co ts1 hpn hcn h5 hf1 i j cj hcjv
      rw [← hT2]
      have hdlen2 : d.subAreas.length =
          (as.filter (areaMatch (orderMap ps) co i j)).length := by
        rw [hdlen]
        simp only [Area.subAreas, List.length_map]
      refine List.ext_getElem? ?_
      intro k
      by_cases hklt : k < (as.filter (areaMatch (orderMap ps) co i j)).length
      · obtain ⟨ak, hakv⟩ : ∃ ak,
            (as.filter (areaMatch (orderMap ps) co i j))[k]? = some ak :=
          ⟨_, List.getElem?_eq_getElem hklt⟩
        have hrd2 : (Area.mk cj.code cj.name cj.parent_code 0 0
            ((as.filter (areaMatch (orderMap ps) co i j)).map
              mkChildNode)).subAreas[k]? = some (mkChildNode ak) := by
          simp only [Area.subAreas]
          rw [List.getElem?_map, hakv]
          rfl
        have hq3r := hdk k _ hrd2
        rw [appendList_mkChildNode] at hq3r
        rw [hq3r, List.getElem?_map, hakv]
        simp only [Option.map_some']
        refine congrArg some ?_
        simp only [expAreaNode]
        congr 1
        have hT3 := streetFilter_congr ps cs as ss co ao ts1 ts2 han h6 hf2 hlvl2
          i j k ak hakv
        rw [hT3]
      · rw [List.getElem?_eq_none (by omega), List.getElem?_eq_none]
        simp only [List.length_map]
        omega
    · rw [List.getElem?_eq_none (by omega), List.getElem?_eq_none]
      simp only [List.length_map]
      omega
  · rw [List.getElem?_eq_none (by omega), List.getElem?_eq_none]
    simp only [expectedForest, List.length_map]
    omega

/-- Claim C5: for every input whose codes are unique per level and whose
    city, area and street records all resolve (via the code prefixes) to a
    record of the level above, buildTrees produces exactly the expected
    forest: provinces become roots in province-list order, and under every
    parent the children appear in the relative order of that level input
    list, so sibling order at every level matches input order. -/
theorem buildTrees_order_preserving (ps cs as ss : List flatNode)
    (hpn : (ps.map flatNode.code).Nodup)
    (hcn : (cs.map flatNode.code).Nodup)
    (han : (as.map flatNode.code).Nodup)
    (h4 : cs.all (resolvesP ps) = true)
    (h5 : as.all (resolvesC cs) = true)
    (h6 : ss.all (resolvesA as) = true) :
    buildTrees ps cs as ss = some (expectedForest ps cs as ss) :=
  buildTrees_eq_expected ps cs as ss hpn hcn han
    (fun c hc => List.all_eq_true.mp h4 c hc)
    (fun a ha => List.all_eq_true.mp h5 a ha)
    (fun s hs => List.all_eq_true.mp h6 s hs)

/-- Witness for C5: the fully resolving two-province example satisfies all
    hypotheses and buildTrees on it equals the expected forest. -/
theorem buildTrees_order_preserving_witness :
    (exPs6.map flatNode.code).Nodup ∧ (exCs6.map flatNode.code).Nodup ∧
    (exAs6.map flatNode.code).Nodup ∧ exCs6.all (resolvesP exPs6) = true ∧
    exAs6.all (resolvesC exCs6) = true ∧ exSs6.all (resolvesA exAs6) = true ∧
    buildTrees exPs6 exCs6 exAs6 exSs6 =
      some (expectedForest exPs6 exCs6 exAs6 exSs6) :=
  ⟨by decide, by decide, by decide, by decide, by decide, by decide,
   buildTrees_order_preserving exPs6 exCs6 exAs6 exSs6 (by decide) (by decide)
     (by decide) (by decide) (by decide) (by decide)⟩

/- The Statement Emitter: genSQL is the pre-order node/depth enumeration
   rendered through rowOf. -/

mutual
theorem genSQL_eq_nodesD : ∀ (t : Area) (d : Nat),
    genSQL t d = (nodesD t d).map rowOf
  | .mk c n pc l r subs, d => by
    show Row.mk c n pc d l r :: genSQLList subs (d + 1) =
      ((Area.mk c n pc l r subs, d) :: nodesDList subs (d + 1)).map rowOf
    rw [List.map_cons, genSQLList_eq_nodesDList subs (d + 1)]
    rfl

theorem genSQLList_eq_nodesDList : ∀ (ts : List Area) (d : Nat),
    genSQLList ts d = (nodesDList ts d).map rowOf
  | [], _ => rfl
  | t :: ts, d => by
    show genSQL t d ++ genSQLList ts d = (nodesD t d ++ nodesDList ts d).map rowOf
    rw [List.map_append, genSQL_eq_nodesD t d, genSQLList_eq_nodesDList ts d]
end

mutual
theorem nodesD_length : ∀ (t : Area) (d : Nat), (nodesD t d).length = t.size
  | .mk c n pc l r subs, d => by
    show ((Area.mk c n pc l r subs, d) :: nodesDList subs (d + 1)).length =
      1 + sizeList subs
    rw [List.length_cons, nodesDList_length subs (d + 1)]
    omega

theorem nodesDList_length : ∀ (ts : List Area) (d : Nat),
    (nodesDList ts d).length = sizeList ts
  | [], _ => rfl
  | t :: ts, d => by
    show (nodesD t d ++ nodesDList ts d).length = t.size + sizeList ts
    rw [List.length_append, nodesD_length t d, nodesDList_length ts d]
end

theorem self_mem_nodesD : ∀ (t : Area) (d : Nat), (t, d) ∈ nodesD t d
  | .mk c n pc l r subs, d => by
    show (Area.mk c n pc l r subs, d) ∈
      (Area.mk c n pc l r subs, d) :: nodesDList subs (d + 1)
    exact List.mem_cons_self _ _

theorem mem_nodesDList_of_mem : ∀ (ts : List Area) (d : Nat) (t : Area),
    t ∈ ts → ∀ p, p ∈ nodesD t d → p ∈ nodesDList ts d
  | [], _, t, ht, _, _ => absurd ht (List.not_mem_nil t)
  | t0 :: ts, d, t, ht, p, hp => by
    show p ∈ nodesD t0 d ++ nodesDList ts d
    rcases List.mem_cons.mp ht with h | h
    · rw [h] at hp
      exact List.mem_append_left _ hp
    · exact List.mem_append_right _ (mem_nodesDList_of_mem ts d t h p hp)

theorem mem_nodesD_of_child : ∀ (t : Area) (d : Nat) (c : Area) (p : Area × Nat),
    c ∈ t.subAreas → p ∈ nodesD c (d + 1) → p ∈ nodesD t d
  | .mk cc n pc l r subs, d, c, p, hc, hp => by
    show p ∈ (Area.mk cc n pc l r subs, d) :: nodesDList subs (d + 1)
    exact List.mem_cons_of_mem _ (mem_nodesDList_of_mem subs (d + 1) c hc p hp)

/-- Claim C7: genSQLFile emits exactly one row per node of the indexed
    forest (as many rows as nodes), in the pre-order sequence used for
    indexing: the emission is the map of rowOf over the pre-order node/depth
    enumeration that pairs each root with depth 1 and each child with its
    parent depth plus one, so each parent row is immediately followed by the
    rows of its subtree and each row carries the six fields code, name,
    parent code, depth, left, right taken from its node; in particular every
    root (province) row is emitted with depth 1 and every node four levels
    down (street) is emitted with depth 4. -/
theorem genSQLFile_preorder (ts : List Area) :
    genSQLFile ts = (nodesDList ts 1).map rowOf ∧
    (genSQLFile ts).length = sizeList ts ∧
    (∀ t1 ∈ ts, rowOf (t1, 1) ∈ genSQLFile ts) ∧
    (∀ t1 ∈ ts, ∀ t2 ∈ t1.subAreas, ∀ t3 ∈ t2.subAreas, ∀ t4 ∈ t3.subAreas,
      rowOf (t4, 4) ∈ genSQLFile ts) := by
  have he : genSQLFile ts = (nodesDList ts 1).map rowOf :=
    genSQLList_eq_nodesDList ts 1
  refine ⟨he, ?_, ?_, ?_⟩
  · rw [he, List.length_map, nodesDList_length]
  · intro t1 h1
    rw [he]
    exact List.mem_map_of_mem rowOf
      (mem_nodesDList_of_mem ts 1 t1 h1 _ (self_mem_nodesD t1 1))
  · intro t1 h1 t2 h2 t3 h3 t4 h4
    rw [he]
    refine List.mem_map_of_mem rowOf ?_
    refine mem_nodesDList_of_mem ts 1 t1 h1 _ ?_
    refine mem_nodesD_of_child t1 1 t2 _ h2 ?_
    refine mem_nodesD_of_child t2 2 t3 _ h3 ?_
    exact mem_nodesD_of_child t3 3 t4 _ h4 (self_mem_nodesD t4 4)

/-- Witness for C7: on the indexed single-chain example, the emission is the
    rendered pre-order enumeration, the root row has depth 1 and the street
    leaf row has depth 4. -/
theorem genSQLFile_preorder_witness :
    genSQLFile [exIndexed] = (nodesDList [exIndexed] 1).map rowOf ∧
    rowOf (exIndexed, 1) ∈ genSQLFile [exIndexed] ∧
    rowOf (Area.mk ['1', '1', '0', '1', '0', '1', '0', '0', '0', '1'] ['D']
      ['1', '1', '0', '1', '0', '1'] 4 5 [], 4) ∈ genSQLFile [exIndexed] :=
  ⟨(genSQLFile_preorder [exIndexed]).1,
   (genSQLFile_preorder [exIndexed]).2.2.1 exIndexed
     (List.mem_singleton_self exIndexed),
   (genSQLFile_preorder [exIndexed]).2.2.2 exIndexed
     (List.mem_singleton_self exIndexed)
     _ (List.mem_singleton_self _) _ (List.mem_singleton_self _)
     _ (List.mem_singleton_self _)⟩

/- The int32 wrap: bridging lemmas between indexTree and its unbounded
   companion, the general wrapped counter law, and the wrap counterexamples
   to the unconditional key invariants. -/

theorem int32val_of_lt (x : Nat) (h : x < 2 ^ 31) : int32val x = (x : Int) := by
  simp only [int32val]
  rw [if_pos h]

mutual
theorem indexTree_counter_mod : ∀ (t : Area) (s : Nat), s < 2 ^ 32 →
    (indexTree t s).2 = (s + 2 * t.size) % 2 ^ 32
  | .mk c n pc l r subs, s, _ => by
    have h := indexList_counter_mod subs ((s + 1) % 2 ^ 32)
      (Nat.mod_lt _ (by norm_num))
    show ((indexList subs ((s + 1) % 2 ^ 32)).2 + 1) % 2 ^ 32 =
      (s + 2 * (1 + sizeList subs)) % 2 ^ 32
    rw [h, Nat.mod_add_mod, Nat.add_assoc, Nat.mod_add_mod]
    congr 1
    ring

theorem indexList_counter_mod : ∀ (ts : List Area) (s : Nat), s < 2 ^ 32 →
    (indexList ts s).2 = (s + 2 * sizeList ts) % 2 ^ 32
  | [], s, hs => by
    show s = (s + 2 * 0) % 2 ^ 32
    rw [Nat.mul_zero, Nat.add_zero, Nat.mod_eq_of_lt hs]
  | t :: ts, s, hs => by
    have ht := indexTree_counter_mod t s hs
    have h2 := indexList_counter_mod ts (indexTree t s).2
      (by rw [ht]; exact Nat.mod_lt _ (by norm_num))
    show (indexList ts (indexTree t s).2).2 =
      (s + 2 * (t.size + sizeList ts)) % 2 ^ 32
    rw [h2, ht, Nat.mod_add_mod]
    congr 1
    ring
end

mutual
theorem indexTree_eq_unbounded : ∀ (t : Area) (s : Nat),
    s + 2 * t.size < 2 ^ 32 → indexTree t s = indexTreeU t s
  | .mk c n pc l r subs, s, h => by
    have h2 : s + 2 * (1 + sizeList subs) < 2 ^ 32 := h
    have h1 : (s + 1) % 2 ^ 32 = s + 1 := Nat.mod_eq_of_lt (by omega)
    have hrec : indexList subs (s + 1) = indexListU subs (s + 1) :=
      indexList_eq_unbounded subs (s + 1) (by omega)
    have hcnt : (indexListU subs (s + 1)).2 = s + 1 + 2 * sizeList subs :=
      (indexListU_keysFrom subs (s + 1)).2.1
    have h3 : s + 1 + 2 * sizeList subs + 1 < 2 ^ 32 := by omega
    show (Area.mk c n pc ((s + 1) % 2 ^ 32)
        (((indexList subs ((s + 1) % 2 ^ 32)).2 + 1) % 2 ^ 32)
        (indexList subs ((s + 1) % 2 ^ 32)).1,
      ((indexList subs ((s + 1) % 2 ^ 32)).2 + 1) % 2 ^ 32) =
      (Area.mk c n pc (s + 1) ((indexListU subs (s + 1)).2 + 1)
        (indexListU subs (s + 1)).1, (indexListU subs (s + 1)).2 + 1)
    rw [h1, hrec, hcnt, Nat.mod_eq_of_lt h3]

theorem indexList_eq_unbounded : ∀ (ts : List Area) (s : Nat),
    s + 2 * sizeList ts < 2 ^ 32 → indexList ts s = indexListU ts s
  | [], _, _ => rfl
  | t :: ts, s, h => by
    have h2 : s + 2 * (t.size + sizeList ts) < 2 ^ 32 := h
    have hp := Area.size_pos t
    have ht : indexTree t s = indexTreeU t s :=
      indexTree_eq_unbounded t s (by omega)
    have hcnt : (indexTreeU t s).2 = s + 2 * t.size :=
      (indexTreeU_keysFrom t s).2.1
    have hts : indexList ts (s + 2 * t.size) = indexListU ts (s + 2 * t.size) :=
      indexList_eq_unbounded ts (s + 2 * t.size) (by omega)
    show ((indexTree t s).1 :: (indexList ts (indexTree t s).2).1,
        (indexList ts (indexTree t s).2).2) =
      ((indexTreeU t s).1 :: (indexListU ts (indexTreeU t s).2).1,
       (indexListU ts (indexTreeU t s).2).2)
    rw [ht, hcnt, hts]
end

theorem assignKeys_eq_unbounded (ts : List Area) (h : 2 * sizeList ts < 2 ^ 32) :
    assignKeys ts = assignKeysU ts := by
  show (indexList ts 0).1 = (indexListU ts 0).1
  rw [indexList_eq_unbounded ts 0 (by omega)]

theorem indexList_append : ∀ (l1 l2 : List Area) (s : Nat),
    indexList (l1 ++ l2) s =
      ((indexList l1 s).1 ++ (indexList l2 (indexList l1 s).2).1,
       (indexList l2 (indexList l1 s).2).2)
  | [], l2, s => rfl
  | t :: ts, l2, s => by
    have ih := indexList_append ts l2 (indexTree t s).2
    show ((indexTree t s).1 :: (indexList (ts ++ l2) (indexTree t s).2).1,
        (indexList (ts ++ l2) (indexTree t s).2).2) =
      (((indexTree t s).1 :: (indexList ts (indexTree t s).2).1) ++
        (indexList l2 (indexList ts (indexTree t s).2).2).1,
       (indexList l2 (indexList ts (indexTree t s).2).2).2)
    rw [ih]
    rfl

theorem sizeList_replicate : ∀ (n : Nat) (t : Area),
    sizeList (List.replicate n t) = n * t.size
  | 0, _ => by simp [sizeList]
  | n + 1, t => by
    show t.size + sizeList (List.replicate n t) = (n + 1) * t.size
    rw [sizeList_replicate n t]
    ring

theorem labelsList_append : ∀ (A B : List Area),
    labelsList (A ++ B) = labelsList A ++ labelsList B
  | [], B => by simp [labelsList]
  | t :: ts, B => by
    have ih := labelsList_append ts B
    show labels t ++ labelsList (ts ++ B) = (labels t ++ labelsList ts) ++ labelsList B
    rw [ih, List.append_assoc]

theorem buildTrees_no_children (ps : List flatNode) :
    buildTrees ps [] [] [] = some (ps.map mkRoot) := rfl

theorem assignKeys_replicate_wrap :
    assignKeys (List.replicate (2 ^ 30) (mkRoot wrapPv)) =
      (indexList (List.replicate (2 ^ 30 - 1) (mkRoot wrapPv)) 0).1 ++
      [Area.mk ['1', '1'] ['A'] ['0'] (2 ^ 31 - 1) (2 ^ 31) []] := by
  have h30 : (2 : Nat) ^ 30 = (2 ^ 30 - 1) + 1 := by norm_num
  have hsplit : List.replicate (2 ^ 30) (mkRoot wrapPv) =
      List.replicate (2 ^ 30 - 1) (mkRoot wrapPv) ++ [mkRoot wrapPv] := by
    conv_lhs => rw [h30]
    rw [List.replicate_succ']
  have hsz : (mkRoot wrapPv).size = 1 := rfl
  have hc1 : (indexList (List.replicate (2 ^ 30 - 1) (mkRoot wrapPv)) 0).2 =
      2 ^ 31 - 2 := by
    rw [indexList_counter_mod _ 0 (by norm_num), sizeList_replicate, hsz]
    norm_num
  have hlast : indexList [mkRoot wrapPv] (2 ^ 31 - 2) =
      ([Area.mk ['1', '1'] ['A'] ['0'] (2 ^ 31 - 1) (2 ^ 31) []], 2 ^ 31) := rfl
  rw [hsplit]
  show (indexList (List.replicate (2 ^ 30 - 1) (mkRoot wrapPv) ++ [mkRoot wrapPv]) 0).1 =
    (indexList (List.replicate (2 ^ 30 - 1) (mkRoot wrapPv)) 0).1 ++
      [Area.mk ['1', '1'] ['A'] ['0'] (2 ^ 31 - 1) (2 ^ 31) []]
  rw [indexList_append, hc1, hlast]

/-- Counterexample to claim C1 as stated: buildTrees yields the forest of
    2 ^ 30 single-node province roots, and after assignKeys the last root
    has Left = MaxInt32 while its Right wrapped to MinInt32, so this node
    violates Left < Right under the signed int32 reading of the keys. -/
theorem indexer_overflow_counterexample :
    buildTrees (List.replicate (2 ^ 30) wrapPv) [] [] [] =
      some (List.replicate (2 ^ 30) (mkRoot wrapPv)) ∧
    ∃ N ∈ allNodesList (assignKeys (List.replicate (2 ^ 30) (mkRoot wrapPv))),
      ¬ int32val N.left < int32val N.right := by
  refine ⟨?_, ?_⟩
  · rw [buildTrees_no_children, List.map_replicate]
  · refine ⟨Area.mk ['1', '1'] ['A'] ['0'] (2 ^ 31 - 1) (2 ^ 31) [], ?_, ?_⟩
    · refine mem_allNodesList_of_mem _ _ ?_
      rw [assignKeys_replicate_wrap]
      exact List.mem_append_right _ (List.mem_singleton_self _)
    · show ¬ int32val (2 ^ 31 - 1) < int32val (2 ^ 31)
      decide

/-- Counterexample to claim C2 as stated: on the same forest of 2 ^ 30
    single-node roots the wrapped counter assigns a Right key whose signed
    int32 value is negative, so the collection of Left and Right values is
    not the set {1, ..., 2 * totalNodeCount}. -/
theorem range_continuity_wrap_counterexample :
    buildTrees (List.replicate (2 ^ 30) wrapPv) [] [] [] =
      some (List.replicate (2 ^ 30) (mkRoot wrapPv)) ∧
    ∃ x ∈ labelsList (assignKeys (List.replicate (2 ^ 30) (mkRoot wrapPv))),
      int32val x < 0 := by
  refine ⟨?_, ?_⟩
  · rw [buildTrees_no_children, List.map_replicate]
  · refine ⟨2 ^ 31, ?_, by decide⟩
    rw [assignKeys_replicate_wrap, labelsList_append]
    refine List.mem_append_right _ ?_
    show (2 : Nat) ^ 31 ∈
      labelsList [Area.mk ['1', '1'] ['A'] ['0'] (2 ^ 31 - 1) (2 ^ 31) []]
    decide

/-- Counterexample to claim C9 as stated: starting the counter at MaxInt32,
    indexTree on a single leaf wraps, and the returned counter denotes the
    signed int32 value MinInt32 + 1 rather than s + 2 * size. -/
theorem indexTree_wrap_counterexample :
    ¬ int32val (indexTree (Area.mk [] [] [] 0 0 []) (2 ^ 31 - 1)).2 =
      (2 ^ 31 - 1 : Int) + 2 * ((Area.mk [] [] [] 0 0 []).size : Int) := by
  decide

/-- Claim C9 (corrected): with the int32 wrap modeled, indexTree returns the
    32-bit pattern of its starting counter plus twice the node count of its
    tree; whenever s + 2 * size stays below 2 ^ 31 no wrap occurs and the
    returned counter equals s + 2 * size both as a pattern and as a signed
    value; and after assignKeys on a forest whose label count stays below
    2 ^ 31 every node N satisfies
    Right = Left + 2 * (number of proper descendants of N) + 1 and is a
    leaf if and only if Right = Left + 1. -/
theorem indexTree_counter_wrap :
    (∀ (t : Area) (s : Nat), s < 2 ^ 32 →
      (indexTree t s).2 = (s + 2 * t.size) % 2 ^ 32) ∧
    (∀ (t : Area) (s : Nat), s + 2 * t.size < 2 ^ 31 →
      (indexTree t s).2 = s + 2 * t.size ∧
      int32val (indexTree t s).2 = (s : Int) + 2 * (t.size : Int)) ∧
    (∀ (ts : List Area), 2 * sizeList ts < 2 ^ 31 →
      ∀ N ∈ allNodesList (assignKeys ts),
        N.right = N.left + 2 * sizeList N.subAreas + 1 ∧
        (N.subAreas = [] ↔ N.right = N.left + 1)) := by
  refine ⟨indexTree_counter_mod, ?_, ?_⟩
  · intro t s h
    have hb : indexTree t s = indexTreeU t s :=
      indexTree_eq_unbounded t s (by omega)
    have hc : (indexTreeU t s).2 = s + 2 * t.size :=
      (indexTreeU_keysFrom t s).2.1
    have he : (indexTree t s).2 = s + 2 * t.size := by rw [hb, hc]
    refine ⟨he, ?_⟩
    rw [he, int32val_of_lt _ (by omega)]
    push_cast
    ring
  · intro ts h N hN
    rw [assignKeys_eq_unbounded ts (by omega)] at hN
    obtain ⟨u, _, huk, _⟩ := keysFromList_mem (assignKeysU ts) 0
      (assignKeysU_keysFromList ts).1 N hN
    have hf := keysFrom_facts N u huk
    refine ⟨hf.2.2, ?_, ?_⟩
    · intro he
      have h0 : sizeList N.subAreas = 0 := by rw [he]; rfl
      omega
    · intro he
      have h0 : sizeList N.subAreas = 0 := by omega
      exact sizeList_eq_zero.mp h0

/-- Witness for C9: the no-wrap equation at a concrete leaf and counter, and
    the Right-Left law at a concrete indexed singleton forest. -/
theorem indexTree_counter_wrap_witness :
    ((5 : Nat) < 2 ^ 32 ∧
      (indexTree (Area.mk [] [] [] 0 0 []) 5).2 =
        (5 + 2 * (Area.mk [] [] [] 0 0 []).size) % 2 ^ 32) ∧
    (5 + 2 * (Area.mk [] [] [] 0 0 []).size < 2 ^ 31 ∧
      (indexTree (Area.mk [] [] [] 0 0 []) 5).2 =
        5 + 2 * (Area.mk [] [] [] 0 0 []).size) ∧
    (2 * sizeList [Area.mk [] [] [] 0 0 []] < 2 ^ 31 ∧
      (Area.mk [] [] [] 1 2 []).right =
        (Area.mk [] [] [] 1 2 []).left +
          2 * sizeList (Area.mk [] [] [] 1 2 []).subAreas + 1) :=
  ⟨⟨by decide, indexTree_counter_wrap.1 (Area.mk [] [] [] 0 0 []) 5 (by decide)⟩,
   ⟨by decide, (indexTree_counter_wrap.2.1 (Area.mk [] [] [] 0 0 []) 5 (by decide)).1⟩,
   ⟨by decide,
    (indexTree_counter_wrap.2.2 [Area.mk [] [] [] 0 0 []] (by decide)
      (Area.mk [] [] [] 1 2 []) (by exact List.mem_cons_self _ _)).1⟩⟩

/-- Claim C2 (corrected): whenever twice the node count stays below 2 ^ 31
    (so the int32 counter never wraps), after assignKeys the Left and Right
    keys across the whole forest are exactly {1, ..., 2 * totalNodeCount}
    with no repeats, every key denotes itself as a signed int32 value, and
    the key ranges of distinct roots are pairwise disjoint and ordered by
    root order (one global counter threaded across all trees, never
    reset). -/
theorem assignKeys_range_roots (ts : List Area) (h : 2 * sizeList ts < 2 ^ 31) :
    (labelsList (assignKeys ts)).Perm (List.range' 1 (2 * sizeList ts)) ∧
    (labelsList (assignKeys ts)).Nodup ∧
    (∀ x ∈ labelsList (assignKeys ts), int32val x = (x : Int)) ∧
    List.Pairwise (fun a b => a.right < b.left) (assignKeys ts) := by
  rw [assignKeys_eq_unbounded ts (by omega)]
  obtain ⟨hk, hsz⟩ := assignKeysU_keysFromList ts
  have hperm := keysFromList_labels (assignKeysU ts) 0 hk
  rw [hsz] at hperm
  simp only [Nat.zero_add] at hperm
  refine ⟨hperm, ?_, ?_, keysFromList_pairwise (assignKeysU ts) 0 hk⟩
  · exact (List.Perm.nodup_iff hperm).mpr (List.nodup_range' 1 (2 * sizeList ts))
  · intro x hx
    have hm := hperm.mem_iff.mp hx
    have hb := List.mem_range'_1.mp hm
    exact int32val_of_lt x (by omega)

/-- Witness for C2: the bound holds on the indexed single-chain example and
    its labels are exactly the range 1..8. -/
theorem assignKeys_range_roots_witness :
    2 * sizeList exForest < 2 ^ 31 ∧
    (labelsList (assignKeys exForest)).Perm
      (List.range' 1 (2 * sizeList exForest)) :=
  ⟨by decide, (assignKeys_range_roots exForest (by decide)).1⟩

/-- Claim C1 (corrected): after assignKeys runs on a forest produced by
    buildTrees whose node count keeps the int32 counter below the wrap
    (2 * totalNodeCount < 2 ^ 31), every node N has
    int32val N.left < int32val N.right (and N.left < N.right as patterns),
    the children of N interleave strictly between its keys in build order
    (N.left < C1.left, Ci.right < C(i+1).left, Ck.right < N.right), and
    every descendant D of N satisfies N.left < D.left < D.right < N.right. -/
theorem buildTrees_assignKeys_invariants (ps cs as ss : List flatNode) (ts : List Area)
    (hb : buildTrees ps cs as ss = some ts) (hsz : 2 * sizeList ts < 2 ^ 31) :
    ∀ N ∈ allNodesList (assignKeys ts),
      int32val N.left < int32val N.right ∧ N.left < N.right ∧ siblingsOrdered N ∧
      ∀ D ∈ allNodesList N.subAreas,
        N.left < D.left ∧ D.left < D.right ∧ D.right < N.right := by
  intro N hN
  rw [assignKeys_eq_unbounded ts (by omega)] at hN
  obtain ⟨u, hu0, huk, hub⟩ := keysFromList_mem (assignKeysU ts) 0
    (assignKeysU_keysFromList ts).1 N hN
  have hf := keysFrom_facts N u huk
  have hp := Area.size_pos N
  have hszU : sizeList (assignKeysU ts) = sizeList ts := (assignKeysU_keysFromList ts).2
  rw [hszU] at hub
  have hlt : N.left < N.right := by omega
  refine ⟨?_, hlt, keysFrom_sibs N u huk, keysFrom_contain N u huk⟩
  rw [int32val_of_lt _ (by omega), int32val_of_lt _ (by omega)]
  exact_mod_cast hlt

/-- Witness for C1: the single-chain example forest is produced by
    buildTrees, satisfies the bound, and its indexed root meets all
    invariants. -/
theorem buildTrees_assignKeys_invariants_witness :
    buildTrees exPs exCs exAs exSs = some exForest ∧
    2 * sizeList exForest < 2 ^ 31 ∧
    (int32val exIndexed.left < int32val exIndexed.right ∧
      exIndexed.left < exIndexed.right ∧ siblingsOrdered exIndexed ∧
      ∀ D ∈ allNodesList exIndexed.subAreas,
        exIndexed.left < D.left ∧ D.left < D.right ∧ D.right < exIndexed.right) :=
  ⟨rfl, by decide,
   buildTrees_assignKeys_invariants exPs exCs exAs exSs exForest rfl (by decide)
     exIndexed (by exact List.mem_cons_self _ _)⟩
